import Mathlib

/-!
Verification of the hierarchical task store of `src/mcp/TaskProvider.ts`.

The data model (`src/common/Task.ts`, interface `ITask`) and every operation
of the `TaskProvider` class are embedded as executable Lean functions.
Timestamps (`Date`) are modelled as natural numbers supplied through a `now`
parameter; the persistence collaborator (`TaskDb`) is modelled by a `dbSet`
flag, the in-memory forest, and a `disk` component that `db.write()` updates;
a `writeOk` parameter tells whether the collaborator's `write()` resolves or
rejects (`saveToDatabase` catches the rejection).

JavaScript arrays are modelled as lists.  The source occasionally holds an
array by reference (`updateTaskOrder` keeps the source and destination
sibling lists); the embedding re-locates the owning node by its id, which
matches reference identity under the data-model invariant that ids are
globally unique across the forest.
-/

namespace TaskStore

/-- A task node, as in `src/common/Task.ts` (`ITask`): `description` and
`parentId` are optional, `children` is the nested list of subtasks. -/
inductive Task : Type where
  | mk (id : String) (title : String) (descr : Option String) (completed : Bool)
       (createdAt updatedAt : Nat) (order : Int) (children : List Task)
       (parentId : Option String) : Task

def Task.id : Task → String
  | mk i _ _ _ _ _ _ _ _ => i

def Task.title : Task → String
  | mk _ ti _ _ _ _ _ _ _ => ti

def Task.descr : Task → Option String
  | mk _ _ d _ _ _ _ _ _ => d

def Task.completed : Task → Bool
  | mk _ _ _ c _ _ _ _ _ => c

def Task.createdAt : Task → Nat
  | mk _ _ _ _ ca _ _ _ _ => ca

def Task.updatedAt : Task → Nat
  | mk _ _ _ _ _ ua _ _ _ => ua

def Task.order : Task → Int
  | mk _ _ _ _ _ _ o _ _ => o

def Task.children : Task → List Task
  | mk _ _ _ _ _ _ _ cs _ => cs

def Task.parentId : Task → Option String
  | mk _ _ _ _ _ _ _ _ p => p

def Task.withChildren : Task → List Task → Task
  | mk i ti d c ca ua o _ p, cs => mk i ti d c ca ua o cs p

def Task.withOrder : Task → Int → Task
  | mk i ti d c ca ua _ cs p, o => mk i ti d c ca ua o cs p

def Task.withUpdatedAt : Task → Nat → Task
  | mk i ti d c ca _ o cs p, ua => mk i ti d c ca ua o cs p

mutual

/-- Pre-order list of all ids in a subtree (statement-side helper). -/
def idsTask : Task → List String
  | .mk i _ _ _ _ _ _ cs _ => i :: idsList cs

/-- Pre-order list of all ids in a forest (statement-side helper). -/
def idsList : List Task → List String
  | [] => []
  | t :: ts => idsTask t ++ idsList ts

end

/-- Ids of the members of one sibling list (statement-side helper). -/
def topIds (l : List Task) : List String := l.map Task.id

/-- Order fields of the members of one sibling list (statement-side helper). -/
def topOrders (l : List Task) : List Int := l.map Task.order

/-- Observation of a sibling list: the id and order of each member in
sequence (statement-side helper). -/
def pairsOf (l : List Task) : List (String × Int) :=
  l.map fun t => (t.id, t.order)

/-- Stable insertion of a task into a sibling list, before the first member
with a strictly larger `order`.  Building a sort from it yields exactly the
stable ascending sort that `Array.prototype.sort((a, b) => a.order - b.order)`
performs in `_sortTasksRecursive`. -/
def insertByOrder (t : Task) : List Task → List Task
  | [] => [t]
  | u :: us => if t.order ≤ u.order then t :: u :: us else u :: insertByOrder t us

mutual

/-- Recursive sort of one task's descendants, from `_sortTasksRecursive`
(which sorts a sibling list in place and recurses into children).  Sorting a
sibling list compares only `order` fields, so sorting the siblings commutes
with recursively sorting their subtrees and the two passes are interleaved
here. -/
def sortTaskRec : Task → Task
  | .mk i ti d c ca ua o cs p => .mk i ti d c ca ua o (sortTasksRec cs) p

/-- Model of `_sortTasksRecursive`: stable sort of a sibling list by `order`,
recursing into the children of every member. -/
def sortTasksRec : List Task → List Task
  | [] => []
  | t :: ts => insertByOrder (sortTaskRec t) (sortTasksRec ts)

end

mutual

/-- Model of `findTaskByIdRecursive` restricted to one task: the task itself
is checked first, then its children depth-first. -/
def findInTask (tid : String) : Task → Option Task
  | .mk i ti d c ca ua o cs p =>
    if i = tid then some (.mk i ti d c ca ua o cs p) else findInList tid cs

/-- Model of `findTaskByIdRecursive`: depth-first search, each task checked
before its children, siblings in sequence. -/
def findInList (tid : String) : List Task → Option Task
  | [] => none
  | t :: ts =>
    match findInTask tid t with
    | some r => some r
    | none => findInList tid ts

end

mutual

/-- Helper of `updateFirstList` for one task. -/
def updateFirstTask (tid : String) (f : Task → Task) : Task → Option Task
  | .mk i ti d c ca ua o cs p =>
    if i = tid then some (f (.mk i ti d c ca ua o cs p))
    else (updateFirstList tid f cs).map (Task.mk i ti d c ca ua o · p)

/-- Locate, with the traversal order of `findTaskByIdRecursive`, the first
task with the given id and replace it by `f` applied to it; `none` when no
task carries the id.  This models the source's find-then-mutate-in-place
pattern (`createTask`'s parent insertion, `updateTask`'s field merge, and
`updateTaskOrder`'s per-list operations). -/
def updateFirstList (tid : String) (f : Task → Task) : List Task → Option (List Task)
  | [] => none
  | t :: ts =>
    match updateFirstTask tid f t with
    | some t2 => some (t2 :: ts)
    | none => (updateFirstList tid f ts).map (t :: ·)

end

mutual

/-- Helper of `removeFromList` for one task: try removing inside its
children. -/
def removeFromTask (tid : String) : Task → Option Task
  | .mk i ti d c ca ua o cs p =>
    (removeFromList tid cs).map (Task.mk i ti d c ca ua o · p)

/-- Model of `removeTaskRecursive`: walk the sibling list; on an id match
splice the member (and hence its whole subtree) out and stop; otherwise try
the member's children before moving to the next sibling.  `none` models the
`false` return (nothing removed). -/
def removeFromList (tid : String) : List Task → Option (List Task)
  | [] => none
  | t :: ts =>
    if t.id = tid then some ts
    else
      match removeFromTask tid t with
      | some t2 => some (t2 :: ts)
      | none => (removeFromList tid ts).map (t :: ·)

end

mutual

/-- The kept version of a non-completed task in the sweep: its children
recursively filtered (`{ ...task, children: filteredChildren }`). -/
def filterCompletedTask : Task → Task
  | .mk i ti d c ca ua o cs p => .mk i ti d c ca ua o (filterCompletedList cs) p

/-- Model of `filterCompletedTasksRecursive`: a completed task is dropped
with its entire subtree; a surviving task keeps its recursively filtered
children. -/
def filterCompletedList : List Task → List Task
  | [] => []
  | t :: ts =>
    if t.completed then filterCompletedList ts
    else filterCompletedTask t :: filterCompletedList ts

end

mutual

/-- Count of completed tasks in one subtree (the task itself and then,
unconditionally, its children). -/
def countTotalCompletedTask : Task → Nat
  | .mk _ _ _ c _ _ _ cs _ => (if c then 1 else 0) + countTotalCompletedList cs

/-- Model of `countTotalCompletedTasksRecursive`: every task with
`completed = true` counts once, no matter how deep and no matter whether an
ancestor is also completed. -/
def countTotalCompletedList : List Task → Nat
  | [] => 0
  | t :: ts => countTotalCompletedTask t + countTotalCompletedList ts

end

/-- Model of `_normalizeOrder` starting at index `i`. -/
def normalizeOrderFrom (i : Nat) : List Task → List Task
  | [] => []
  | t :: ts => t.withOrder i :: normalizeOrderFrom (i + 1) ts

/-- Model of `_normalizeOrder`: `order` of each member becomes its index. -/
def normalizeOrder (l : List Task) : List Task := normalizeOrderFrom 0 l

/-- Model of `list.splice(n, 0, x)` for `n ≤ list.length` (the only use is
with the clamped position). -/
def listInsertAt {α : Type} : Nat → α → List α → List α
  | 0, x, l => x :: l
  | _ + 1, x, [] => [x]
  | n + 1, x, y :: l => y :: listInsertAt n x l

/-- Model of `Math.max(0, Math.min(order, length))` from `updateTaskOrder`:
the requested order clamped into `[0, length]`. -/
def clampPos (ord : Int) (len : Nat) : Nat := (max 0 (min ord (len : Int))).toNat

/-- Errors the provider can raise: `ensureInitialized`'s error when the store
was not bound to a database, and `createTask`'s parent-resolution error. -/
inductive TPError : Type where
  | notInited : TPError
  | parentNotFound (pid : String) : TPError
deriving DecidableEq

/-- The provider state: `dbSet` models `this.db !== null`, `inited` the
`initialized` flag, `tasks`/`nextId` the in-memory fields, and `disk` the
content last successfully persisted by `db.write()`. -/
structure Store : Type where
  dbSet : Bool
  inited : Bool
  tasks : List Task
  nextId : Nat
  disk : List Task × Nat

/-- Model of the `ensureInitialized` guard condition. -/
def ensureInited (s : Store) : Bool := s.inited && s.dbSet

/-- Model of `saveToDatabase`: without a database it returns silently; a
rejected `write()` is caught (only a debug message), so the in-memory state
is never rolled back and `disk` is updated only when the write resolves. -/
def saveToDatabase (s : Store) (writeOk : Bool) : Store :=
  if s.dbSet = false then s
  else if writeOk then { s with disk := (s.tasks, s.nextId) } else s

/-- Model of `setDb` with a database whose `data` holds the given tasks and
next id: the forest is adopted and recursively sorted, `nextId || 1` maps a
zero to one, and the store becomes initialized. -/
def setDb (_s : Store) (dbTasks : List Task) (dbNextId : Nat) : Store :=
  { dbSet := true
    inited := true
    tasks := sortTasksRec dbTasks
    nextId := if dbNextId = 0 then 1 else dbNextId
    disk := (dbTasks, dbNextId) }

/-- Model of `getTasks` (deep-copied, recursively sorted forest). -/
def getTasks (s : Store) : Except TPError (List Task) :=
  if ensureInited s = false then .error .notInited
  else .ok (sortTasksRec s.tasks)

/-- Model of `getTask` (recursive lookup, `undefined` when absent). -/
def getTask (s : Store) (tid : String) : Except TPError (Option Task) :=
  if ensureInited s = false then .error .notInited
  else .ok (findInList tid s.tasks)

/-- Argument of `createTask` (`taskData`). -/
structure CreateData : Type where
  title : String
  description : Option String := none
  parentId : Option String := none
  order : Option Int := none

/-- Model of `createTask`.  The new task takes id `String(this.nextId++)` —
so `nextId` is consumed before the parent lookup — and the JavaScript
truthiness test `if (taskData.parentId)` sends a missing or empty-string
parent id to the top-level branch.  A non-empty parent id must resolve, or
the call throws with the forest unchanged. -/
def createTask (s : Store) (d : CreateData) (now : Nat) (writeOk : Bool) :
    Except TPError Task × Store :=
  if ensureInited s = false then (.error .notInited, s)
  else
    let newTask : Task :=
      .mk (toString s.nextId) d.title d.description false now now (d.order.getD 0) [] none
    let s1 : Store := { s with nextId := s.nextId + 1 }
    let intoTop : Except TPError Task × Store :=
      (.ok newTask, saveToDatabase { s1 with tasks := sortTasksRec (s1.tasks ++ [newTask]) } writeOk)
    match d.parentId with
    | some pid =>
      if pid = "" then intoTop
      else
        match updateFirstList pid
            (fun p => p.withChildren (sortTasksRec (p.children ++ [newTask]))) s1.tasks with
        | some tasks2 => (.ok newTask, saveToDatabase { s1 with tasks := tasks2 } writeOk)
        | none => (.error (.parentNotFound pid), s1)
    | none => intoTop

/-- Argument of `updateTask` (`Partial<Omit<ITask, 'id' | 'createdAt' |
'updatedAt' | 'children'>>`): `none` here means the field is absent from the
patch. -/
structure TaskPatch : Type where
  title : Option String := none
  description : Option (Option String) := none
  completed : Option Bool := none
  order : Option Int := none
  parentId : Option (Option String) := none

/-- Model of `Object.assign(task, taskUpdate, { updatedAt: new Date() })`. -/
def applyPatch (p : TaskPatch) (now : Nat) : Task → Task
  | .mk i ti d c ca _ o cs pid =>
    .mk i (p.title.getD ti) (p.description.getD d) (p.completed.getD c) ca now
      (p.order.getD o) cs (p.parentId.getD pid)

/-- Model of `updateTask`: recursive lookup, field merge on the found task,
`undefined` (and no persistence) when absent. -/
def updateTask (s : Store) (tid : String) (p : TaskPatch) (now : Nat) (writeOk : Bool) :
    Except TPError (Option Task) × Store :=
  if ensureInited s = false then (.error .notInited, s)
  else
    match updateFirstList tid (applyPatch p now) s.tasks with
    | none => (.ok none, s)
    | some tasks2 =>
      (.ok (findInList tid tasks2), saveToDatabase { s with tasks := tasks2 } writeOk)

/-- Model of `deleteTask`: remove the first match with its subtree; persist
only when something was removed. -/
def deleteTask (s : Store) (tid : String) (writeOk : Bool) :
    Except TPError Bool × Store :=
  if ensureInited s = false then (.error .notInited, s)
  else
    match removeFromList tid s.tasks with
    | some tasks2 => (.ok true, saveToDatabase { s with tasks := tasks2 } writeOk)
    | none => (.ok false, s)

/-- Model of `deleteCompletedTasks`: count every completed task first; on a
zero count return without persisting; otherwise rebuild the forest without
completed subtrees and persist, returning the pre-filter count. -/
def deleteCompletedTasks (s : Store) (writeOk : Bool) : Except TPError Nat × Store :=
  if ensureInited s = false then (.error .notInited, s)
  else
    let cnt := countTotalCompletedList s.tasks
    if cnt = 0 then (.ok 0, s)
    else (.ok cnt, saveToDatabase { s with tasks := filterCompletedList s.tasks } writeOk)

/-- One directly owned sibling list (`updateTaskOrder` keeps such lists by
array reference): `none` is the top-level list `this.tasks`, `some pid` the
children list of the first task found with id `pid`. -/
def sibListAt (forest : List Task) (loc : Option String) : List Task :=
  match loc with
  | none => forest
  | some pid =>
    match findInList pid forest with
    | some p => p.children
    | none => []

/-- Apply an in-place sibling-list operation at a location (see `sibListAt`);
with the data-model invariant of globally unique ids this is the model of
mutating a list held by array reference. -/
def applyAtLoc (loc : Option String) (f : List Task → List Task) (forest : List Task) :
    List Task :=
  match loc with
  | none => f forest
  | some pid =>
    (updateFirstList pid (fun p => p.withChildren (f p.children)) forest).getD forest

/-- The location argument denotes an existing sibling list. -/
def locValid (loc : Option String) (l : List Task) : Prop :=
  match loc with
  | none => True
  | some p => p ∈ idsList l

/-- The order values `0..n-1` as integers (statement-side helper). -/
def intRange (n : Nat) : List Int := (List.range n).map Int.ofNat

/-- Observation of a sibling list by location: the id/order pairs of the
members of the top-level list (`loc = none`) or of the children of the first
task found with the given id; `none` when the id does not occur
(statement-side helper for reasoning about `updateTaskOrder`). -/
def readObs (forest : List Task) (loc : Option String) : Option (List (String × Int)) :=
  match loc with
  | none => some (pairsOf forest)
  | some q => (findInList q forest).map fun u => pairsOf u.children

/-- Splice the first member carrying the id out of one sibling list, from
the `findIndex`/`splice` steps of `updateTaskOrder`. -/
def extractDirect (tid : String) : List Task → Option (Task × List Task)
  | [] => none
  | t :: ts =>
    if t.id = tid then some (t, ts)
    else (extractDirect tid ts).map fun r => (r.1, t :: r.2)

mutual

/-- Model of `updateTaskOrder`'s `findInChildren` on one task, fused with the
later splice: the direct children are scanned first, then each child's
subtree in turn; the result carries the id of the task owning the sibling
list the match was found in, the extracted task, and the updated subtree. -/
def extractIn (tid : String) : Task → Option (String × Task × Task)
  | .mk i ti d c ca ua o cs p =>
    match extractDirect tid cs with
    | some (x, cs2) => some (i, x, .mk i ti d c ca ua o cs2 p)
    | none =>
      (extractInList tid cs).map fun r => (r.1, r.2.1, .mk i ti d c ca ua o r.2.2 p)

/-- `findInChildren` applied to the tasks of a list in turn. -/
def extractInList (tid : String) : List Task → Option (String × Task × List Task)
  | [] => none
  | t :: ts =>
    match extractIn tid t with
    | some (oid, x, t2) => some (oid, x, t2 :: ts)
    | none => (extractInList tid ts).map fun r => (r.1, r.2.1, t :: r.2.2)

end

/-- The find-and-splice phase of `updateTaskOrder`: the top-level list is
scanned first (`findIndex` over `this.tasks`), then the nested search; the
first component is the location of the source sibling list (see
`sibListAt`). -/
def extractTask (tid : String) (forest : List Task) :
    Option (Option String × Task × List Task) :=
  match extractDirect tid forest with
  | some (x, rest) => some (none, x, rest)
  | none => (extractInList tid forest).map fun r => (some r.1, r.2.1, r.2.2)

/-- Destination resolution of `updateTaskOrder`: top level both when
`parentId` is null or undefined (collapsed into `none` here) and — as the
logged fallback — when the given parent id does not resolve in the
post-splice forest. -/
def resolveDest (newParentId : Option String) (forest1 : List Task) : Option String :=
  match newParentId with
  | none => none
  | some pid => if (findInList pid forest1).isSome then some pid else none

/-- Placement phase of `updateTaskOrder` on the post-splice forest: splice
the task into the destination list at the clamped position, renormalize the
destination list and, when distinct, the source list, then recursively
re-sort both (in that order, as in the source). -/
def placeTask (ownerLoc destLoc : Option String) (t1 : Task) (ord : Int)
    (forest1 : List Task) : List Task :=
  let forest2 := applyAtLoc destLoc (fun l => listInsertAt (clampPos ord l.length) t1 l) forest1
  let forest3 := applyAtLoc destLoc normalizeOrder forest2
  let forest4 :=
    if ownerLoc = destLoc then forest3 else applyAtLoc ownerLoc normalizeOrder forest3
  let forest5 := applyAtLoc destLoc sortTasksRec forest4
  if ownerLoc = destLoc then forest5 else applyAtLoc ownerLoc sortTasksRec forest5

/-- Model of `updateTaskOrder`.  After the splice the task's `order` is set
to the requested value and `updatedAt` refreshed; the destination is
resolved with top-level fallback; the task is spliced in at the clamped
position and both affected sibling lists are renormalized and recursively
re-sorted (once when they coincide). -/
def updateTaskOrder (s : Store) (tid : String) (ord : Int) (newParentId : Option String)
    (now : Nat) (writeOk : Bool) : Except TPError (Option Task) × Store :=
  if ensureInited s = false then (.error .notInited, s)
  else
    match extractTask tid s.tasks with
    | none => (.ok none, s)
    | some (ownerLoc, t0, forest1) =>
      let t1 := (t0.withOrder ord).withUpdatedAt now
      let forest6 := placeTask ownerLoc (resolveDest newParentId forest1) t1 ord forest1
      (.ok (findInList tid forest6), saveToDatabase { s with tasks := forest6 } writeOk)

/-! ### Example stores -/

/-- Shorthand used by the concrete scenarios: a task with title equal to its
id, not completed, timestamps zero. -/
def mkT (i : String) (o : Int) (cs : List Task) : Task :=
  .mk i i none false 0 0 o cs none

/-- Top-level forest A(order 0), B(order 1), C(order 2), bound and
initialized: the store of the spec's concrete reorder scenario. -/
def exABC : Store :=
  { dbSet := true, inited := true
    tasks := [mkT "A" 0 [], mkT "B" 1 [], mkT "C" 2 []]
    nextId := 4, disk := ([], 1) }

/-- Forest {A(completed) -> [B(not completed)], C(not completed)}, bound and
initialized: the store of the spec's completed-sweep scenario. -/
def exSweep : Store :=
  { dbSet := true, inited := true
    tasks := [.mk "A" "A" none true 0 0 0 [mkT "B" 0 []] none, mkT "C" 1 []]
    nextId := 9, disk := ([], 1) }

/-- An empty initialized store. -/
def exEmpty : Store :=
  { dbSet := true, inited := true, tasks := [], nextId := 1, disk := ([], 1) }

/-- An unbound store holding the same forest as `exABC`. -/
def exRaw : Store :=
  { dbSet := false, inited := false
    tasks := [], nextId := 1, disk := ([], 1) }

/-- Forest with parent P over children c1, c2 and a second top-level task Q,
bound and initialized (nested-move scenario). -/
def exNest : Store :=
  { dbSet := true, inited := true
    tasks := [mkT "P" 0 [mkT "c1" 0 [], mkT "c2" 1 []], mkT "Q" 1 []]
    nextId := 9, disk := ([], 1) }

/-- Forest P -> X -> Y, bound and initialized (scenario of a move whose
target parent is a descendant of the moved task). -/
def exDeep : Store :=
  { dbSet := true, inited := true
    tasks := [mkT "P" 0 [mkT "X" 0 [mkT "Y" 0 []]]]
    nextId := 9, disk := ([], 1) }

/-! ### Statement-side definitions -/

/-- Comparison used by the sibling sort: the `order` field, ascending. -/
def taskLE (a b : Task) : Prop := a.order ≤ b.order

instance : DecidableRel taskLE := fun a b => inferInstanceAs (Decidable (a.order ≤ b.order))

instance : IsTotal Task taskLE := ⟨fun a b => Int.le_total a.order b.order⟩

instance : IsTrans Task taskLE := ⟨fun _ _ _ h1 h2 => le_trans h1 h2⟩

mutual

/-- Kept ids within one subtree, `chain` telling whether an ancestor is
completed (see `keptIdsList`). -/
def keptIdsTask (chain : Bool) : Task → List String
  | .mk i _ _ c _ _ _ cs _ =>
    (if chain || c then [] else [i]) ++ keptIdsList (chain || c) cs

/-- Modelled from the spec sentence for the completed sweep: "A child
survives only if its ancestor chain contains no completed node."  `chain`
records whether some ancestor of the current tasks is completed; a task's id
is kept exactly when neither it nor any ancestor is completed.  Stated
independently of `filterCompletedList` to compare the two. -/
def keptIdsList (chain : Bool) : List Task → List String
  | [] => []
  | t :: ts => keptIdsTask chain t ++ keptIdsList chain ts

end

/-- Declarative description of what a successful `deleteTask` does, stated
from the spec: exactly one sibling list loses exactly its first member
carrying the id (the member's whole subtree disappearing with it), every
other task — in particular every surviving sibling, with its `order`
field — is kept unchanged, and the search is depth-first, each task checked
before its children, which the side conditions of the `tail` constructor pin
down. -/
inductive RemovedOne (tid : String) : List Task → List Task → Prop where
  | head (t : Task) (ts : List Task) (h : t.id = tid) : RemovedOne tid (t :: ts) ts
  | child (t : Task) (cs2 ts : List Task) (h : t.id ≠ tid)
      (hc : RemovedOne tid t.children cs2) :
      RemovedOne tid (t :: ts) (t.withChildren cs2 :: ts)
  | tail (t : Task) (ts ts2 : List Task) (h : tid ∉ idsTask t)
      (ht : RemovedOne tid ts ts2) : RemovedOne tid (t :: ts) (t :: ts2)

/-! ### Basic facts about persistence -/

theorem saveToDatabase_false (s : Store) : saveToDatabase s false = s := by
  unfold saveToDatabase
  split <;> simp

theorem saveToDatabase_tasks (s : Store) (w : Bool) :
    (saveToDatabase s w).tasks = s.tasks := by
  unfold saveToDatabase
  split <;> [rfl; (split <;> rfl)]

theorem saveToDatabase_nextId (s : Store) (w : Bool) :
    (saveToDatabase s w).nextId = s.nextId := by
  unfold saveToDatabase
  split <;> [rfl; (split <;> rfl)]

theorem saveToDatabase_disk_true (s : Store) (h : s.dbSet = true) :
    (saveToDatabase s true).disk = (s.tasks, s.nextId) := by
  unfold saveToDatabase
  simp [h]

theorem saveToDatabase_dbSet (s : Store) (w : Bool) :
    (saveToDatabase s w).dbSet = s.dbSet := by
  unfold saveToDatabase
  split <;> [rfl; (split <;> rfl)]

theorem saveToDatabase_inited (s : Store) (w : Bool) :
    (saveToDatabase s w).inited = s.inited := by
  unfold saveToDatabase
  split <;> [rfl; (split <;> rfl)]

/-! ### Claim C8: operations before binding fail, after binding succeed -/

/-- C8: on a store that has not been bound to its database collaborator,
every operation fails with the uninitialized error and leaves the state
unchanged; after `setDb` the guard passes and every operation is accepted
(the lookup operations return a value, a parentless create succeeds). -/
theorem uninit_rejects_then_setDb_accepts (s : Store) (h : ensureInited s = false)
    (tid : String) (d : CreateData) (p : TaskPatch) (ord : Int) (npid : Option String)
    (now : Nat) (w : Bool) (dbT : List Task) (dbN : Nat) (ti : String)
    (de : Option String) (od : Option Int) :
    getTasks s = .error .notInited ∧
    getTask s tid = .error .notInited ∧
    createTask s d now w = (.error .notInited, s) ∧
    updateTask s tid p now w = (.error .notInited, s) ∧
    deleteTask s tid w = (.error .notInited, s) ∧
    deleteCompletedTasks s w = (.error .notInited, s) ∧
    updateTaskOrder s tid ord npid now w = (.error .notInited, s) ∧
    ensureInited (setDb s dbT dbN) = true ∧
    (∃ l : List Task, getTasks (setDb s dbT dbN) = .ok l) ∧
    (∃ r : Option Task, getTask (setDb s dbT dbN) tid = .ok r) ∧
    (∃ t : Task, (createTask (setDb s dbT dbN) ⟨ti, de, none, od⟩ now w).1 = .ok t) ∧
    (∃ r : Option Task, (updateTask (setDb s dbT dbN) tid p now w).1 = .ok r) ∧
    (∃ b : Bool, (deleteTask (setDb s dbT dbN) tid w).1 = .ok b) ∧
    (∃ n : Nat, (deleteCompletedTasks (setDb s dbT dbN) w).1 = .ok n) ∧
    (∃ r : Option Task, (updateTaskOrder (setDb s dbT dbN) tid ord npid now w).1 = .ok r) := by
  have hs : ensureInited (setDb s dbT dbN) = true := rfl
  refine ⟨?_, ?_, ?_, ?_, ?_, ?_, ?_, rfl, ⟨_, rfl⟩, ⟨_, rfl⟩, ⟨_, rfl⟩, ?_, ?_, ?_, ?_⟩
  · simp [getTasks, h]
  · simp [getTask, h]
  · simp [createTask, h]
  · simp [updateTask, h]
  · simp [deleteTask, h]
  · simp [deleteCompletedTasks, h]
  · simp [updateTaskOrder, h]
  · rcases hu : updateFirstList tid (applyPatch p now) (setDb s dbT dbN).tasks with _ | l2 <;>
      · simp only [updateTask, hs, Bool.true_eq_false, if_false, hu]
        exact ⟨_, rfl⟩
  · rcases hr : removeFromList tid (setDb s dbT dbN).tasks with _ | l2 <;>
      · simp only [deleteTask, hs, Bool.true_eq_false, if_false, hr]
        exact ⟨_, rfl⟩
  · by_cases hc : countTotalCompletedList (setDb s dbT dbN).tasks = 0 <;>
      · simp only [deleteCompletedTasks, hs, Bool.true_eq_false, if_false, hc]
        exact ⟨_, rfl⟩
  · rcases he : extractTask tid (setDb s dbT dbN).tasks with _ | ⟨oloc, t0, f1⟩ <;>
      · simp only [updateTaskOrder, hs, Bool.true_eq_false, if_false, he]
        exact ⟨_, rfl⟩

/-- Witness for C8 on the concrete unbound store. -/
theorem uninit_rejects_then_setDb_accepts_witness :
    ensureInited exRaw = false ∧
    (getTasks exRaw = .error .notInited ∧
      getTask exRaw "A" = .error .notInited ∧
      createTask exRaw ⟨"t", none, none, none⟩ 3 true = (.error .notInited, exRaw) ∧
      updateTask exRaw "A" {} 3 true = (.error .notInited, exRaw) ∧
      deleteTask exRaw "A" true = (.error .notInited, exRaw) ∧
      deleteCompletedTasks exRaw true = (.error .notInited, exRaw) ∧
      updateTaskOrder exRaw "A" 0 none 3 true = (.error .notInited, exRaw) ∧
      ensureInited (setDb exRaw [mkT "A" 0 []] 7) = true ∧
      (∃ l : List Task, getTasks (setDb exRaw [mkT "A" 0 []] 7) = .ok l) ∧
      (∃ r : Option Task, getTask (setDb exRaw [mkT "A" 0 []] 7) "A" = .ok r) ∧
      (∃ t : Task,
        (createTask (setDb exRaw [mkT "A" 0 []] 7) ⟨"t", none, none, none⟩ 3 true).1 = .ok t) ∧
      (∃ r : Option Task,
        (updateTask (setDb exRaw [mkT "A" 0 []] 7) "A" {} 3 true).1 = .ok r) ∧
      (∃ b : Bool, (deleteTask (setDb exRaw [mkT "A" 0 []] 7) "A" true).1 = .ok b) ∧
      (∃ n : Nat, (deleteCompletedTasks (setDb exRaw [mkT "A" 0 []] 7) true).1 = .ok n) ∧
      (∃ r : Option Task,
        (updateTaskOrder (setDb exRaw [mkT "A" 0 []] 7) "A" 0 none 3 true).1 = .ok r)) :=
  ⟨rfl, uninit_rejects_then_setDb_accepts exRaw rfl "A" ⟨"t", none, none, none⟩ {} 0 none
    3 true [mkT "A" 0 []] 7 "t" none none⟩

/-! ### Claim C7: a rejected write is absorbed, memory is not rolled back -/

theorem saveToDatabase_false_vs_true (s1 : Store) (dk : List Task × Nat)
    (hdisk : s1.disk = dk) :
    saveToDatabase s1 false = { saveToDatabase s1 true with disk := dk } := by
  unfold saveToDatabase
  split
  · simp [← hdisk]
  · simp [← hdisk]

/-- C7: for every mutating operation, a run whose `write()` rejects returns
the same value and leaves the same in-memory forest and counter as a run
whose write succeeds; only the persisted state is left behind (it keeps its
prior value), so memory and disk can diverge until the next successful
write. -/
theorem write_failure_not_rolled_back (s : Store) (tid : String) (d : CreateData)
    (p : TaskPatch) (ord : Int) (npid : Option String) (now : Nat) :
    createTask s d now false
      = ((createTask s d now true).1, { (createTask s d now true).2 with disk := s.disk }) ∧
    updateTask s tid p now false
      = ((updateTask s tid p now true).1, { (updateTask s tid p now true).2 with disk := s.disk }) ∧
    deleteTask s tid false
      = ((deleteTask s tid true).1, { (deleteTask s tid true).2 with disk := s.disk }) ∧
    deleteCompletedTasks s false
      = ((deleteCompletedTasks s true).1, { (deleteCompletedTasks s true).2 with disk := s.disk }) ∧
    updateTaskOrder s tid ord npid now false
      = ((updateTaskOrder s tid ord npid now true).1,
          { (updateTaskOrder s tid ord npid now true).2 with disk := s.disk }) := by
  refine ⟨?_, ?_, ?_, ?_, ?_⟩
  · unfold createTask
    split
    · simp
    · cases d.parentId with
      | none => simp [saveToDatabase_false, saveToDatabase_tasks, saveToDatabase_nextId, saveToDatabase_dbSet, saveToDatabase_inited]
      | some pid =>
        by_cases hp : pid = ""
        · simp [hp, saveToDatabase_false, saveToDatabase_tasks, saveToDatabase_nextId, saveToDatabase_dbSet, saveToDatabase_inited]
        · rcases hu : updateFirstList pid
              (fun q => q.withChildren (sortTasksRec (q.children ++
                [Task.mk (toString s.nextId) d.title d.description false now now
                  (d.order.getD 0) [] none]))) s.tasks with _ | l2 <;>
            simp [hp, hu, saveToDatabase_false, saveToDatabase_tasks, saveToDatabase_nextId, saveToDatabase_dbSet, saveToDatabase_inited]
  · unfold updateTask
    split
    · simp
    · rcases hu : updateFirstList tid (applyPatch p now) s.tasks with _ | l2 <;>
        simp [hu, saveToDatabase_false, saveToDatabase_tasks, saveToDatabase_nextId, saveToDatabase_dbSet, saveToDatabase_inited]
  · unfold deleteTask
    split
    · simp
    · rcases hr : removeFromList tid s.tasks with _ | l2 <;>
        simp [hr, saveToDatabase_false, saveToDatabase_tasks, saveToDatabase_nextId, saveToDatabase_dbSet, saveToDatabase_inited]
  · unfold deleteCompletedTasks
    split
    · simp
    · by_cases hc : countTotalCompletedList s.tasks = 0 <;>
        simp [hc, saveToDatabase_false, saveToDatabase_tasks, saveToDatabase_nextId, saveToDatabase_dbSet, saveToDatabase_inited]
  · unfold updateTaskOrder
    split
    · simp
    · rcases he : extractTask tid s.tasks with _ | ⟨oloc, t0, f1⟩ <;>
        simp [he, saveToDatabase_false, saveToDatabase_tasks, saveToDatabase_nextId, saveToDatabase_dbSet, saveToDatabase_inited]

/-! ### Accessor equations -/

@[simp] theorem Task.id_mk (i ti d c ca ua o cs p) : (Task.mk i ti d c ca ua o cs p).id = i := rfl

@[simp] theorem Task.order_mk (i ti d c ca ua o cs p) :
    (Task.mk i ti d c ca ua o cs p).order = o := rfl

@[simp] theorem Task.children_mk (i ti d c ca ua o cs p) :
    (Task.mk i ti d c ca ua o cs p).children = cs := rfl

@[simp] theorem Task.completed_mk (i ti d c ca ua o cs p) :
    (Task.mk i ti d c ca ua o cs p).completed = c := rfl

@[simp] theorem Task.title_mk (i ti d c ca ua o cs p) :
    (Task.mk i ti d c ca ua o cs p).title = ti := rfl

@[simp] theorem Task.withChildren_mk (i ti d c ca ua o cs p cs2) :
    (Task.mk i ti d c ca ua o cs p).withChildren cs2 = Task.mk i ti d c ca ua o cs2 p := rfl

@[simp] theorem Task.withOrder_mk (i ti d c ca ua o cs p o2) :
    (Task.mk i ti d c ca ua o cs p).withOrder o2 = Task.mk i ti d c ca ua o2 cs p := rfl

@[simp] theorem Task.withUpdatedAt_mk (i ti d c ca ua o cs p ua2) :
    (Task.mk i ti d c ca ua o cs p).withUpdatedAt ua2 = Task.mk i ti d c ca ua2 o cs p := rfl

@[simp] theorem Task.id_withChildren (t : Task) (cs : List Task) :
    (t.withChildren cs).id = t.id := by cases t; rfl

@[simp] theorem Task.order_withChildren (t : Task) (cs : List Task) :
    (t.withChildren cs).order = t.order := by cases t; rfl

@[simp] theorem Task.children_withChildren (t : Task) (cs : List Task) :
    (t.withChildren cs).children = cs := by cases t; rfl

@[simp] theorem Task.id_withOrder (t : Task) (o : Int) : (t.withOrder o).id = t.id := by
  cases t; rfl

@[simp] theorem Task.order_withOrder (t : Task) (o : Int) : (t.withOrder o).order = o := by
  cases t; rfl

@[simp] theorem Task.children_withOrder (t : Task) (o : Int) :
    (t.withOrder o).children = t.children := by cases t; rfl

@[simp] theorem sortTaskRec_id (t : Task) : (sortTaskRec t).id = t.id := by
  cases t; simp [sortTaskRec]

@[simp] theorem sortTaskRec_order (t : Task) : (sortTaskRec t).order = t.order := by
  cases t; simp [sortTaskRec]

@[simp] theorem sortTaskRec_children (t : Task) :
    (sortTaskRec t).children = sortTasksRec t.children := by cases t; simp [sortTaskRec]

@[simp] theorem idsTask_def (t : Task) : idsTask t = t.id :: idsList t.children := by
  cases t; simp [idsTask]

/-! ### The sibling sort is the stable insertion sort by order -/

theorem insertByOrder_eq_orderedInsert (t : Task) (l : List Task) :
    insertByOrder t l = List.orderedInsert taskLE t l := by
  induction l with
  | nil => rfl
  | cons u us ih =>
    by_cases h : t.order ≤ u.order
    · simp [insertByOrder, List.orderedInsert, taskLE, h]
    · simp [insertByOrder, List.orderedInsert, taskLE, h, ih]

theorem sortTasksRec_eq_insertionSort (l : List Task) :
    sortTasksRec l = List.insertionSort taskLE (l.map sortTaskRec) := by
  induction l with
  | nil => rfl
  | cons t ts ih =>
    simp [sortTasksRec, List.insertionSort, ih, insertByOrder_eq_orderedInsert]

theorem sortTasksRec_perm (l : List Task) : List.Perm (sortTasksRec l) (l.map sortTaskRec) := by
  rw [sortTasksRec_eq_insertionSort]
  exact List.perm_insertionSort _ _

theorem sortTasksRec_sorted (l : List Task) : List.Sorted taskLE (sortTasksRec l) := by
  rw [sortTasksRec_eq_insertionSort]
  exact List.sorted_insertionSort _ _

theorem sortTasksRec_of_sorted {l : List Task} (h : List.Sorted taskLE l) :
    sortTasksRec l = l.map sortTaskRec := by
  rw [sortTasksRec_eq_insertionSort]
  refine List.Sorted.insertionSort_eq ?_
  exact List.Pairwise.map sortTaskRec (fun a b hab => by simpa [taskLE] using hab) h

/-! ### Ids under permutations and the sort -/

theorem idsList_append (a b : List Task) : idsList (a ++ b) = idsList a ++ idsList b := by
  induction a with
  | nil => rfl
  | cons t ts ih => simp [idsList, ih]

theorem idsList_perm_of_perm {l1 l2 : List Task} (h : List.Perm l1 l2) :
    List.Perm (idsList l1) (idsList l2) := by
  induction h with
  | nil => rfl
  | cons x _ ih => simpa [idsList] using ih.append_left (idsTask x)
  | swap x y l =>
    simp only [idsList, ← List.append_assoc]
    exact List.perm_append_comm.append_right _
  | trans _ _ ih1 ih2 => exact ih1.trans ih2

mutual

theorem idsTask_sortTaskRec : ∀ t : Task, List.Perm (idsTask (sortTaskRec t)) (idsTask t)
  | .mk i ti d c ca ua o cs p => by
    simpa [sortTaskRec, idsTask] using
      ((idsList_perm_of_perm (sortTasksRec_perm cs)).trans (idsList_map_sortTaskRec cs)).cons i

theorem idsList_map_sortTaskRec : ∀ l : List Task, List.Perm (idsList (l.map sortTaskRec)) (idsList l)
  | [] => List.Perm.refl _
  | t :: ts => by
    simpa [idsList] using (idsTask_sortTaskRec t).append (idsList_map_sortTaskRec ts)

end

theorem idsList_sortTasksRec (l : List Task) : List.Perm (idsList (sortTasksRec l)) (idsList l) :=
  (idsList_perm_of_perm (sortTasksRec_perm l)).trans (idsList_map_sortTaskRec l)


/-! ### Search misses and hits -/

mutual

theorem findInTask_eq_none (tid : String) :
    ∀ t : Task, findInTask tid t = none ↔ tid ∉ idsTask t
  | .mk i ti d c ca ua o cs p => by
    by_cases hi : i = tid
    · simp [findInTask, hi, idsTask]
    · simp [findInTask, hi, idsTask, findInList_eq_none tid cs, Ne.symm hi]

theorem findInList_eq_none (tid : String) :
    ∀ l : List Task, findInList tid l = none ↔ tid ∉ idsList l
  | [] => by simp [findInList, idsList]
  | t :: ts => by
    rcases hft : findInTask tid t with _ | u
    · have h1 := (findInTask_eq_none tid t).mp hft
      have hA : ¬ tid = t.id := fun hh => h1 (by simp [idsTask_def, hh])
      have hB : tid ∉ idsList t.children := fun hh => h1 (by simp [idsTask_def, hh])
      simp [findInList, hft, idsList, findInList_eq_none tid ts, idsTask_def, hA, hB]
    · have h1 : tid ∈ idsTask t := by
        by_contra hc
        rw [← findInTask_eq_none tid t] at hc
        simp [hft] at hc
      simp [findInList, hft, idsList, h1]
      intro hA hB
      rcases (by simpa [idsTask_def] using h1 : tid = t.id ∨ tid ∈ idsList t.children) with h | h
      · exact absurd h hA
      · exact absurd h hB

end

mutual

theorem updateFirstTask_eq_none (tid : String) (f : Task → Task) :
    ∀ t : Task, updateFirstTask tid f t = none ↔ tid ∉ idsTask t
  | .mk i ti d c ca ua o cs p => by
    by_cases hi : i = tid
    · simp [updateFirstTask, hi, idsTask]
    · simp [updateFirstTask, hi, idsTask, updateFirstList_eq_none tid f cs, Ne.symm hi]

theorem updateFirstList_eq_none (tid : String) (f : Task → Task) :
    ∀ l : List Task, updateFirstList tid f l = none ↔ tid ∉ idsList l
  | [] => by simp [updateFirstList, idsList]
  | t :: ts => by
    rcases hft : updateFirstTask tid f t with _ | u
    · have h1 := (updateFirstTask_eq_none tid f t).mp hft
      have hA : ¬ tid = t.id := fun hh => h1 (by simp [idsTask_def, hh])
      have hB : tid ∉ idsList t.children := fun hh => h1 (by simp [idsTask_def, hh])
      simp [updateFirstList, hft, idsList, updateFirstList_eq_none tid f ts, idsTask_def, hA, hB]
    · have h1 : tid ∈ idsTask t := by
        by_contra hc
        rw [← updateFirstTask_eq_none tid f t] at hc
        simp [hft] at hc
      simp [updateFirstList, hft, idsList, h1]
      intro hA hB
      rcases (by simpa [idsTask_def] using h1 : tid = t.id ∨ tid ∈ idsList t.children) with h | h
      · exact absurd h hA
      · exact absurd h hB

end

mutual

theorem removeFromTask_eq_none (tid : String) :
    ∀ t : Task, removeFromTask tid t = none ↔ tid ∉ idsList t.children
  | .mk i ti d c ca ua o cs p => by
    simp [removeFromTask, removeFromList_eq_none tid cs]

theorem removeFromList_eq_none (tid : String) :
    ∀ l : List Task, removeFromList tid l = none ↔ tid ∉ idsList l
  | [] => by simp [removeFromList, idsList]
  | t :: ts => by
    by_cases hi : t.id = tid
    · simp [removeFromList, hi, idsList, idsTask_def]
    · rcases hrt : removeFromTask tid t with _ | t2
      · have h1 := (removeFromTask_eq_none tid t).mp hrt
        simp [removeFromList, hi, hrt, idsList, idsTask_def, Ne.symm hi, h1,
          removeFromList_eq_none tid ts]
      · have h1 : tid ∈ idsList t.children := by
          by_contra hc
          rw [← removeFromTask_eq_none tid t] at hc
          simp [hrt] at hc
        simp [removeFromList, hi, hrt, idsList, idsTask_def, h1]

end

mutual

theorem findInTask_some_id (tid : String) :
    ∀ t u : Task, findInTask tid t = some u → u.id = tid
  | .mk i ti d c ca ua o cs p, u => by
    by_cases hi : i = tid
    · simp [findInTask, hi]
      intro h
      simp [← h]
    · simp [findInTask, hi]
      exact findInList_some_id tid cs u

theorem findInList_some_id (tid : String) :
    ∀ (l : List Task) (u : Task), findInList tid l = some u → u.id = tid
  | [], u => by simp [findInList]
  | t :: ts, u => by
    rcases hft : findInTask tid t with _ | v
    · simp [findInList, hft]
      exact findInList_some_id tid ts u
    · simp [findInList, hft]
      intro h
      subst h
      exact findInTask_some_id tid t v hft

end

theorem findInList_mem_some (tid : String) (l : List Task) (hm : tid ∈ idsList l) :
    ∃ u : Task, findInList tid l = some u ∧ u.id = tid := by
  rcases hf : findInList tid l with _ | u
  · exact absurd ((findInList_eq_none tid l).mp hf) (by simpa using hm)
  · exact ⟨u, rfl, findInList_some_id tid l u hf⟩


/-! ### Facts about createTask -/

theorem mem_idsList_sortAppend (l : List Task) (t : Task) :
    t.id ∈ idsList (sortTasksRec (l ++ [t])) := by
  refine (idsList_sortTasksRec (l ++ [t])).mem_iff.mpr ?_
  rw [idsList_append]
  simp [idsList, idsTask_def]

/-- A non-empty parent id that resolves to no task makes `createTask` throw,
with the forest untouched but `nextId` already incremented. -/
theorem createTask_parent_missing (s : Store) (h : ensureInited s = true)
    (pid : String) (hpid : pid ≠ "") (hpm : pid ∉ idsList s.tasks)
    (ti : String) (de : Option String) (od : Option Int) (now : Nat) (w : Bool) :
    createTask s ⟨ti, de, some pid, od⟩ now w
      = (.error (.parentNotFound pid), { s with nextId := s.nextId + 1 }) := by
  unfold createTask
  rw [h]
  have hu :
      updateFirstList pid
        (fun p => p.withChildren (sortTasksRec (p.children ++
          [Task.mk (toString s.nextId) ti de false now now (od.getD 0) [] none])))
        s.tasks = none :=
    (updateFirstList_eq_none pid _ s.tasks).mpr hpm
  simp [hpid, hu]

/-- C3 (counterexample): on the empty initialized store, `create` with an
empty title does not fail with a validation error — it returns the created
task and changes the store. -/
theorem create_empty_title_accepted_cex :
    (createTask exEmpty ⟨"", none, none, none⟩ 5 true).1
      = .ok (Task.mk "1" "" none false 5 5 0 [] none) ∧
    (createTask exEmpty ⟨"", none, none, none⟩ 5 true).2.tasks
      = [Task.mk "1" "" none false 5 5 0 [] none] ∧
    (createTask exEmpty ⟨"", none, none, none⟩ 5 true).2.nextId = 2 :=
  ⟨rfl, rfl, rfl⟩

/-- C3 (as amended): `createTask` performs no title validation: on every
initialized store a create with an empty title succeeds, returns the new
task — whose title is the empty string — increments `nextId` and adds the
task to the forest. -/
theorem create_empty_title_succeeds (s : Store) (h : ensureInited s = true)
    (now : Nat) (w : Bool) :
    (createTask s ⟨"", none, none, none⟩ now w).1
      = .ok (Task.mk (toString s.nextId) "" none false now now 0 [] none) ∧
    (createTask s ⟨"", none, none, none⟩ now w).2.nextId = s.nextId + 1 ∧
    toString s.nextId ∈ idsList ((createTask s ⟨"", none, none, none⟩ now w).2.tasks) := by
  unfold createTask
  rw [h]
  refine ⟨rfl, ?_, ?_⟩
  · simp [saveToDatabase_nextId]
  · simpa [saveToDatabase_tasks] using
      mem_idsList_sortAppend s.tasks
        (Task.mk (toString s.nextId) "" none false now now 0 [] none)

/-- Witness for the amended C3 on the concrete empty store. -/
theorem create_empty_title_succeeds_witness :
    ensureInited exEmpty = true ∧
    ((createTask exEmpty ⟨"", none, none, none⟩ 5 true).1
        = .ok (Task.mk (toString exEmpty.nextId) "" none false 5 5 0 [] none) ∧
      (createTask exEmpty ⟨"", none, none, none⟩ 5 true).2.nextId = exEmpty.nextId + 1 ∧
      toString exEmpty.nextId
        ∈ idsList ((createTask exEmpty ⟨"", none, none, none⟩ 5 true).2.tasks)) :=
  ⟨rfl, create_empty_title_succeeds exEmpty rfl 5 true⟩

/-- C4 (counterexample): an empty-string parent id resolves to no task, yet
`createTask` does not throw — JavaScript truthiness treats it as absent and
the task is created at top level. -/
theorem create_empty_parentId_accepted_cex :
    (createTask exEmpty ⟨"x", none, some "", none⟩ 5 true).1
      = .ok (Task.mk "1" "x" none false 5 5 0 [] none) ∧
    (createTask exEmpty ⟨"x", none, some "", none⟩ 5 true).2.tasks
      = [Task.mk "1" "x" none false 5 5 0 [] none] :=
  ⟨rfl, rfl⟩

/-- C4 (as amended): for an id absent from the forest, `getTask` and
`updateTask` return `undefined` and `deleteTask` returns `false`, none of
them throwing or touching the store; `createTask` with a non-empty parent id
that resolves to no task throws the parent-not-found error (an empty-string
parent id is instead treated as absent and the task is created top-level). -/
theorem missing_id_lookups_vs_create (s : Store) (h : ensureInited s = true)
    (tid : String) (hmem : tid ∉ idsList s.tasks) (p : TaskPatch) (now : Nat) (w : Bool)
    (pid : String) (hpid : pid ≠ "") (hpm : pid ∉ idsList s.tasks)
    (ti : String) (de : Option String) (od : Option Int) :
    getTask s tid = .ok none ∧
    updateTask s tid p now w = (.ok none, s) ∧
    deleteTask s tid w = (.ok false, s) ∧
    createTask s ⟨ti, de, some pid, od⟩ now w
      = (.error (.parentNotFound pid), { s with nextId := s.nextId + 1 }) := by
  refine ⟨?_, ?_, ?_, createTask_parent_missing s h pid hpid hpm ti de od now w⟩
  · unfold getTask
    rw [h]
    simp [(findInList_eq_none tid s.tasks).mpr hmem]
  · unfold updateTask
    rw [h]
    simp [(updateFirstList_eq_none tid (applyPatch p now) s.tasks).mpr hmem]
  · unfold deleteTask
    rw [h]
    simp [(removeFromList_eq_none tid s.tasks).mpr hmem]

/-- Witness for the amended C4 on the concrete A, B, C store. -/
theorem missing_id_lookups_vs_create_witness :
    ensureInited exABC = true ∧ "Z" ∉ idsList exABC.tasks ∧ ("zz" : String) ≠ "" ∧
    "zz" ∉ idsList exABC.tasks ∧
    (getTask exABC "Z" = .ok none ∧
      updateTask exABC "Z" {} 3 true = (.ok none, exABC) ∧
      deleteTask exABC "Z" true = (.ok false, exABC) ∧
      createTask exABC ⟨"t", none, some "zz", none⟩ 3 true
        = (.error (.parentNotFound "zz"), { exABC with nextId := exABC.nextId + 1 })) :=
  ⟨rfl, by decide, by decide, by decide,
    missing_id_lookups_vs_create exABC rfl "Z" (by decide) {} 3 true "zz" (by decide)
      (by decide) "t" none none⟩

/-- C10: when `createTask` throws on an unresolvable (non-empty) parent id,
the forest is unchanged but `nextId` was consumed: the next successful
create receives an id one larger than a create on the original store would
have received. -/
theorem failed_create_consumes_id (s : Store) (h : ensureInited s = true)
    (pid : String) (hpid : pid ≠ "") (hpm : pid ∉ idsList s.tasks)
    (ti ti2 : String) (de de2 : Option String) (od od2 : Option Int)
    (now now2 : Nat) (w w2 : Bool) :
    createTask s ⟨ti, de, some pid, od⟩ now w
      = (.error (.parentNotFound pid), { s with nextId := s.nextId + 1 }) ∧
    (createTask (createTask s ⟨ti, de, some pid, od⟩ now w).2 ⟨ti2, de2, none, od2⟩ now2 w2).1
      = .ok (Task.mk (toString (s.nextId + 1)) ti2 de2 false now2 now2 (od2.getD 0) [] none) ∧
    (createTask s ⟨ti2, de2, none, od2⟩ now2 w2).1
      = .ok (Task.mk (toString s.nextId) ti2 de2 false now2 now2 (od2.getD 0) [] none) := by
  have h1 := createTask_parent_missing s h pid hpid hpm ti de od now w
  refine ⟨h1, ?_, ?_⟩
  · rw [h1]
    have h2 : ensureInited { s with nextId := s.nextId + 1 } = true := h
    unfold createTask
    rw [h2]
    simp
  · unfold createTask
    rw [h]
    simp

/-- Witness for C10 on the concrete A, B, C store. -/
theorem failed_create_consumes_id_witness :
    ensureInited exABC = true ∧ ("zz" : String) ≠ "" ∧ "zz" ∉ idsList exABC.tasks ∧
    (createTask exABC ⟨"t", none, some "zz", none⟩ 3 true
        = (.error (.parentNotFound "zz"), { exABC with nextId := exABC.nextId + 1 }) ∧
      (createTask (createTask exABC ⟨"t", none, some "zz", none⟩ 3 true).2
          ⟨"u", none, none, none⟩ 4 true).1
        = .ok (Task.mk (toString (exABC.nextId + 1)) "u" none false 4 4 0 [] none) ∧
      (createTask exABC ⟨"u", none, none, none⟩ 4 true).1
        = .ok (Task.mk (toString exABC.nextId) "u" none false 4 4 0 [] none)) :=
  ⟨rfl, by decide, by decide,
    failed_create_consumes_id exABC rfl "zz" (by decide) (by decide) "t" "u" none none
      none none 3 4 true true⟩


/-! ### Claim C2: the completed sweep -/

theorem keptIds_chain_true : ∀ l : List Task, keptIdsList true l = []
  | [] => rfl
  | .mk i ti d c ca ua o cs p :: ts => by
    simp [keptIdsList, keptIdsTask, keptIds_chain_true cs, keptIds_chain_true ts]

/-- The rebuilt forest of the sweep keeps exactly the ids of the spec's
description: the tasks whose ancestor chain (themselves included) holds no
completed task. -/
theorem idsList_filterCompleted : ∀ l : List Task,
    idsList (filterCompletedList l) = keptIdsList false l
  | [] => rfl
  | .mk i ti d c ca ua o cs p :: ts => by
    cases c with
    | true =>
      simp [filterCompletedList, keptIdsList, keptIdsTask, keptIds_chain_true cs,
        idsList_filterCompleted ts]
    | false =>
      simp [filterCompletedList, filterCompletedTask, keptIdsList, keptIdsTask,
        idsList, idsTask_def, idsList_filterCompleted cs, idsList_filterCompleted ts]

theorem filterCompleted_of_count_zero : ∀ l : List Task,
    countTotalCompletedList l = 0 → filterCompletedList l = l
  | [] => fun _ => rfl
  | .mk i ti d c ca ua o cs p :: ts => by
    intro h0
    rw [countTotalCompletedList, countTotalCompletedTask] at h0
    rcases Nat.add_eq_zero.mp h0 with ⟨h1, hts⟩
    rcases Nat.add_eq_zero.mp h1 with ⟨hc, hcs⟩
    cases c with
    | true => simp at hc
    | false =>
      simp [filterCompletedList, filterCompletedTask,
        filterCompleted_of_count_zero cs hcs, filterCompleted_of_count_zero ts hts]

/-- C2: `deleteCompletedTasks` returns the number of completed tasks counted
individually anywhere in the forest; on a zero count it returns `0` leaving
the store (disk included) untouched; otherwise the new forest is the
completed-subtree filter, whose surviving ids are exactly the tasks with no
completed task on their ancestor chain (themselves included); on the spec's
concrete forest the call returns `1` and only `C` survives. -/
theorem deleteCompleted_spec (s : Store) (h : ensureInited s = true) (w : Bool) :
    (deleteCompletedTasks s w).1 = .ok (countTotalCompletedList s.tasks) ∧
    (countTotalCompletedList s.tasks = 0 → deleteCompletedTasks s w = (.ok 0, s)) ∧
    (deleteCompletedTasks s w).2.tasks = filterCompletedList s.tasks ∧
    idsList ((deleteCompletedTasks s w).2.tasks) = keptIdsList false s.tasks ∧
    (deleteCompletedTasks s w).2.nextId = s.nextId ∧
    (deleteCompletedTasks exSweep true).1 = .ok 1 ∧
    idsList ((deleteCompletedTasks exSweep true).2.tasks) = ["C"] := by
  have htasks : (deleteCompletedTasks s w).2.tasks = filterCompletedList s.tasks := by
    unfold deleteCompletedTasks
    rw [h]
    by_cases hc : countTotalCompletedList s.tasks = 0
    · simp [hc, filterCompleted_of_count_zero s.tasks hc]
    · simp [hc, saveToDatabase_tasks]
  refine ⟨?_, ?_, htasks, ?_, ?_, rfl, rfl⟩
  · unfold deleteCompletedTasks
    rw [h]
    by_cases hc : countTotalCompletedList s.tasks = 0
    · simp [hc]
    · simp [hc]
  · intro hc
    unfold deleteCompletedTasks
    rw [h]
    simp [hc]
  · rw [htasks]
    exact idsList_filterCompleted s.tasks
  · unfold deleteCompletedTasks
    rw [h]
    by_cases hc : countTotalCompletedList s.tasks = 0
    · simp [hc]
    · simp [hc, saveToDatabase_nextId]

/-- Witness for C2 on the concrete sweep store. -/
theorem deleteCompleted_spec_witness :
    ensureInited exSweep = true ∧
    ((deleteCompletedTasks exSweep true).1 = .ok (countTotalCompletedList exSweep.tasks) ∧
      (countTotalCompletedList exSweep.tasks = 0 →
        deleteCompletedTasks exSweep true = (.ok 0, exSweep)) ∧
      (deleteCompletedTasks exSweep true).2.tasks = filterCompletedList exSweep.tasks ∧
      idsList ((deleteCompletedTasks exSweep true).2.tasks) = keptIdsList false exSweep.tasks ∧
      (deleteCompletedTasks exSweep true).2.nextId = exSweep.nextId ∧
      (deleteCompletedTasks exSweep true).1 = .ok 1 ∧
      idsList ((deleteCompletedTasks exSweep true).2.tasks) = ["C"]) :=
  ⟨rfl, deleteCompleted_spec exSweep rfl true⟩


/-! ### Claim C6: deleteTask -/

mutual

theorem removeFromTask_some (tid : String) :
    ∀ t t2 : Task, removeFromTask tid t = some t2 →
      ∃ cs2, RemovedOne tid t.children cs2 ∧ t2 = t.withChildren cs2
  | .mk i ti d c ca ua o cs p, t2 => by
    simp only [removeFromTask, Option.map_eq_some']
    rintro ⟨l2, hl2, ht2⟩
    exact ⟨l2, removeFromList_some tid cs l2 hl2, by simp [← ht2]⟩

theorem removeFromList_some (tid : String) :
    ∀ l l2 : List Task, removeFromList tid l = some l2 → RemovedOne tid l l2
  | [], l2 => by simp [removeFromList]
  | t :: ts, l2 => by
    by_cases hi : t.id = tid
    · simp only [removeFromList, hi, if_true, Option.some_inj]
      intro h
      subst h
      exact RemovedOne.head t ts hi
    · rcases hrt : removeFromTask tid t with _ | t2m
      · simp only [removeFromList, hi, if_false, hrt, Option.map_eq_some']
        rintro ⟨l2e, hle, h⟩
        subst h
        have h1 := (removeFromTask_eq_none tid t).mp hrt
        have hnot : tid ∉ idsTask t := by
          simp only [idsTask_def, List.mem_cons]
          rintro (hh | hh)
          · exact hi hh.symm
          · exact h1 hh
        exact RemovedOne.tail t ts l2e hnot (removeFromList_some tid ts l2e hle)
      · simp only [removeFromList, hi, if_false, hrt, Option.some_inj]
        intro h
        subst h
        rcases removeFromTask_some tid t t2m hrt with ⟨cs2, hr, ht2⟩
        subst ht2
        exact RemovedOne.child t cs2 ts hi hr

end

/-- C6: `deleteTask` returns `true` exactly when the id occurs in the
forest; a miss changes nothing (disk included); a hit rewrites the forest to
the `removeFromList` result, which stands in the declarative `RemovedOne`
relation to the old forest — exactly one sibling list loses its first member
carrying the id together with that member's whole subtree, while every other
task, sibling list and `order` field is kept unchanged (no renormalization)
— and persists it. -/
theorem deleteTask_spec (s : Store) (h : ensureInited s = true) (tid : String) (w : Bool) :
    ((deleteTask s tid w).1 = .ok true ↔ tid ∈ idsList s.tasks) ∧
    (tid ∉ idsList s.tasks → deleteTask s tid w = (.ok false, s)) ∧
    (∀ l2, removeFromList tid s.tasks = some l2 →
      RemovedOne tid s.tasks l2 ∧
      (deleteTask s tid w).2.tasks = l2 ∧
      (deleteTask s tid w).2.nextId = s.nextId ∧
      (w = true → (deleteTask s tid w).2.disk = (l2, s.nextId))) := by
  have hdb : s.dbSet = true := by
    have := h
    unfold ensureInited at this
    exact (Bool.and_eq_true _ _).mp this |>.2
  refine ⟨?_, ?_, ?_⟩
  · unfold deleteTask
    rw [h]
    rcases hr : removeFromList tid s.tasks with _ | l2
    · have h1 := (removeFromList_eq_none tid s.tasks).mp hr
      simp [h1]
    · have h1 : tid ∈ idsList s.tasks := by
        by_contra hc
        rw [← removeFromList_eq_none tid s.tasks] at hc
        simp [hr] at hc
      simp [h1]
  · intro hm
    unfold deleteTask
    rw [h]
    simp [(removeFromList_eq_none tid s.tasks).mpr hm]
  · intro l2 hr
    refine ⟨removeFromList_some tid s.tasks l2 hr, ?_, ?_, ?_⟩
    · unfold deleteTask
      rw [h]
      simp [hr, saveToDatabase_tasks]
    · unfold deleteTask
      rw [h]
      simp [hr, saveToDatabase_nextId]
    · intro hw
      subst hw
      unfold deleteTask
      rw [h]
      simp only [hr]
      exact saveToDatabase_disk_true _ hdb

/-- Witness for C6: deleting the nested child c1 from the P/Q forest. -/
theorem deleteTask_spec_witness :
    ensureInited exNest = true ∧
    (((deleteTask exNest "c1" true).1 = .ok true ↔ "c1" ∈ idsList exNest.tasks) ∧
      ("c1" ∉ idsList exNest.tasks → deleteTask exNest "c1" true = (.ok false, exNest)) ∧
      (∀ l2, removeFromList "c1" exNest.tasks = some l2 →
        RemovedOne "c1" exNest.tasks l2 ∧
        (deleteTask exNest "c1" true).2.tasks = l2 ∧
        (deleteTask exNest "c1" true).2.nextId = exNest.nextId ∧
        (true = true → (deleteTask exNest "c1" true).2.disk = (l2, exNest.nextId)))) :=
  ⟨rfl, deleteTask_spec exNest rfl "c1" true⟩


/-! ### Splice and extraction facts -/

theorem listInsertAt_perm {α : Type} : ∀ (n : Nat) (x : α) (l : List α),
    List.Perm (listInsertAt n x l) (x :: l)
  | 0, _, _ => List.Perm.refl _
  | _ + 1, _, [] => List.Perm.refl _
  | n + 1, x, y :: l =>
    ((listInsertAt_perm n x l).cons y).trans (List.Perm.swap x y l)

theorem topIds_listInsertAt : ∀ (n : Nat) (x : Task) (l : List Task),
    topIds (listInsertAt n x l) = listInsertAt n x.id (topIds l)
  | 0, x, l => rfl
  | n + 1, x, [] => rfl
  | n + 1, x, y :: l => by
    simp [listInsertAt, topIds] at *
    exact topIds_listInsertAt n x l

theorem idsList_listInsertAt_perm (n : Nat) (x : Task) (l : List Task) :
    List.Perm (idsList (listInsertAt n x l)) (idsTask x ++ idsList l) :=
  idsList_perm_of_perm (listInsertAt_perm n x l)

theorem idsTask_withOrder_withUpdatedAt (t : Task) (o : Int) (ua : Nat) :
    idsTask ((t.withOrder o).withUpdatedAt ua) = idsTask t := by
  cases t
  simp [Task.withOrder, Task.withUpdatedAt, idsTask]

theorem extractDirect_some (tid : String) :
    ∀ (l : List Task) (r : Task × List Task),
      extractDirect tid l = some r → r.1.id = tid ∧ List.Perm l (r.1 :: r.2)
  | [], r => by simp [extractDirect]
  | t :: ts, r => by
    intro h
    rw [extractDirect] at h
    by_cases hi : t.id = tid
    · rw [if_pos hi] at h
      simp only [Option.some_inj] at h
      subst h
      exact ⟨hi, List.Perm.refl _⟩
    · rw [if_neg hi] at h
      rcases Option.map_eq_some'.mp h with ⟨r0, hrec, heq⟩
      subst heq
      rcases extractDirect_some tid ts r0 hrec with ⟨hid, hperm⟩
      exact ⟨hid, (hperm.cons t).trans (List.Perm.swap r0.1 t r0.2)⟩

mutual

theorem extractIn_some (tid : String) :
    ∀ (t : Task) (r : String × Task × Task), extractIn tid t = some r →
      r.2.1.id = tid ∧ r.2.2.id = t.id ∧
      List.Perm (idsTask t) (idsTask r.2.1 ++ idsTask r.2.2) ∧ r.1 ∈ idsTask r.2.2
  | .mk i ti d c ca ua o cs p, r => by
    intro h
    rw [extractIn] at h
    rcases hd : extractDirect tid cs with _ | r0
    · simp only [hd, Option.map_eq_some'] at h
      rcases h with ⟨r1, hrec, heq⟩
      subst heq
      rcases extractInList_some tid cs r1 hrec with ⟨hid, hperm, hmem⟩
      refine ⟨hid, rfl, ?_, by simp [idsTask_def, hmem]⟩
      exact (hperm.cons i).trans List.perm_middle.symm
    · simp only [hd, Option.some_inj] at h
      subst h
      rcases extractDirect_some tid cs r0 hd with ⟨hid, hperm⟩
      have hids : List.Perm (idsList cs) (idsTask r0.1 ++ idsList r0.2) := by
        simpa [idsList] using idsList_perm_of_perm hperm
      refine ⟨hid, rfl, ?_, by simp [idsTask_def]⟩
      exact (hids.cons i).trans List.perm_middle.symm

theorem extractInList_some (tid : String) :
    ∀ (l : List Task) (r : String × Task × List Task), extractInList tid l = some r →
      r.2.1.id = tid ∧ List.Perm (idsList l) (idsTask r.2.1 ++ idsList r.2.2) ∧
      r.1 ∈ idsList r.2.2
  | [], r => by simp [extractInList]
  | t :: ts, r => by
    intro h
    rw [extractInList] at h
    rcases he : extractIn tid t with _ | r0
    · simp only [he, Option.map_eq_some'] at h
      rcases h with ⟨r1, hrec, heq⟩
      subst heq
      rcases extractInList_some tid ts r1 hrec with ⟨hid, hperm, hmem⟩
      refine ⟨hid, ?_, by simp [idsList, hmem]⟩
      simp only [idsList]
      exact (hperm.append_left (idsTask t)).trans
        (List.perm_append_comm_assoc (idsTask t) (idsTask r1.2.1) (idsList r1.2.2))
    · simp only [he, Option.some_inj] at h
      subst h
      rcases extractIn_some tid t r0 he with ⟨hid, _, hperm, hmem⟩
      refine ⟨hid, ?_, ?_⟩
      · simp only [idsList]
        rw [← List.append_assoc]
        exact hperm.append_right _
      · rcases (by simpa [idsTask_def] using hmem :
            r0.1 = r0.2.2.id ∨ r0.1 ∈ idsList r0.2.2.children) with h2 | h2
        · simp [idsList, idsTask_def, h2]
        · simp [idsList, idsTask_def, h2]

end

theorem extractTask_some (tid : String) (l : List Task)
    (r : Option String × Task × List Task) (h : extractTask tid l = some r) :
    r.2.1.id = tid ∧ List.Perm (idsList l) (idsTask r.2.1 ++ idsList r.2.2) ∧
    (∀ oid, r.1 = some oid → oid ∈ idsList r.2.2) := by
  unfold extractTask at h
  rcases hd : extractDirect tid l with _ | r0
  · simp only [hd, Option.map_eq_some'] at h
    rcases h with ⟨r1, hrec, heq⟩
    subst heq
    rcases extractInList_some tid l r1 hrec with ⟨hid, hperm, hmem⟩
    refine ⟨hid, hperm, fun oid hq => ?_⟩
    simp only [Option.some_inj] at hq
    subst hq
    exact hmem
  · simp only [hd, Option.some_inj] at h
    subst h
    rcases extractDirect_some tid l r0 hd with ⟨hid, hperm⟩
    refine ⟨hid, ?_, fun oid hq => Option.noConfusion hq⟩
    simpa [idsList] using idsList_perm_of_perm hperm


/-! ### Search decomposition and extraction misses -/

theorem mem_idsList_decomp (tid : String) : ∀ l : List Task,
    tid ∈ idsList l ↔ tid ∈ topIds l ∨ ∃ t ∈ l, tid ∈ idsList t.children
  | [] => by simp [idsList, topIds]
  | t :: ts => by
    simp only [idsList, idsTask_def, topIds, List.map_cons, List.mem_append, List.mem_cons,
      mem_idsList_decomp tid ts]
    constructor
    · rintro ((h | h) | (h | ⟨u, hu, hm⟩))
      · exact Or.inl (Or.inl h)
      · exact Or.inr ⟨t, Or.inl rfl, h⟩
      · exact Or.inl (Or.inr h)
      · exact Or.inr ⟨u, Or.inr hu, hm⟩
    · rintro ((h | h) | ⟨u, (hu | hu), hm⟩)
      · exact Or.inl (Or.inl h)
      · exact Or.inr (Or.inl h)
      · subst hu
        exact Or.inl (Or.inr hm)
      · exact Or.inr (Or.inr ⟨u, hu, hm⟩)

theorem topIds_subset_idsList {tid : String} {l : List Task} (h : tid ∈ topIds l) :
    tid ∈ idsList l :=
  (mem_idsList_decomp tid l).mpr (Or.inl h)

theorem extractDirect_eq_none (tid : String) : ∀ l : List Task,
    extractDirect tid l = none ↔ tid ∉ topIds l
  | [] => by simp [extractDirect, topIds]
  | t :: ts => by
    by_cases hi : t.id = tid
    · simp [extractDirect, hi, topIds]
    · simp [extractDirect, hi, topIds, Option.map_eq_none', Ne.symm hi,
        extractDirect_eq_none tid ts]

mutual

theorem extractIn_eq_none (tid : String) : ∀ t : Task,
    extractIn tid t = none ↔ tid ∉ idsList t.children
  | .mk i ti d c ca ua o cs p => by
    rw [extractIn]
    rcases hd : extractDirect tid cs with _ | r0
    · have h1 := (extractDirect_eq_none tid cs).mp hd
      simp only [Option.map_eq_none', extractInList_eq_none tid cs, Task.children_mk]
      rw [mem_idsList_decomp tid cs]
      constructor
      · rintro hall (hm | ⟨u, hu, hm⟩)
        · exact h1 hm
        · exact hall u hu hm
      · intro hnot u hu hm
        exact hnot (Or.inr ⟨u, hu, hm⟩)
    · simp only [Task.children_mk]
      constructor
      · intro hc
        cases hc
      · intro hnot
        exfalso
        rcases extractDirect_some tid cs r0 hd with ⟨hid, hperm⟩
        refine hnot (topIds_subset_idsList ?_)
        have hmm : tid ∈ List.map Task.id cs := by
          rw [List.Perm.mem_iff (hperm.map Task.id)]
          simp [hid]
        simpa [topIds] using hmm

theorem extractInList_eq_none (tid : String) : ∀ l : List Task,
    extractInList tid l = none ↔ ∀ t ∈ l, tid ∉ idsList t.children
  | [] => by simp [extractInList]
  | t :: ts => by
    rw [extractInList]
    rcases he : extractIn tid t with _ | r0
    · have h1 := (extractIn_eq_none tid t).mp he
      simp only [Option.map_eq_none', extractInList_eq_none tid ts]
      constructor
      · intro hall u hu
        rcases List.mem_cons.mp hu with hu | hu
        · subst hu
          exact h1
        · exact hall u hu
      · intro hall u hu
        exact hall u (List.mem_cons_of_mem t hu)
    · constructor
      · intro hc
        cases hc
      · intro hall
        exfalso
        have h2 : tid ∈ idsList t.children := by
          by_contra hc
          rw [← extractIn_eq_none tid t] at hc
          simp [he] at hc
        exact hall t (List.mem_cons_self t ts) h2

end

theorem extractTask_eq_none (tid : String) (l : List Task) :
    extractTask tid l = none ↔ tid ∉ idsList l := by
  unfold extractTask
  rcases hd : extractDirect tid l with _ | r0
  · have h1 := (extractDirect_eq_none tid l).mp hd
    simp only [Option.map_eq_none', extractInList_eq_none tid l]
    rw [mem_idsList_decomp tid l]
    constructor
    · rintro hall (hm | ⟨u, hu, hm⟩)
      · exact h1 hm
      · exact hall u hu hm
    · intro hnot u hu hm
      exact hnot (Or.inr ⟨u, hu, hm⟩)
  · constructor
    · intro hc
      cases hc
    · intro hnot
      exfalso
      rcases extractDirect_some tid l r0 hd with ⟨hid, hperm⟩
      refine hnot (topIds_subset_idsList ?_)
      have hmm : tid ∈ List.map Task.id l := by
        rw [List.Perm.mem_iff (hperm.map Task.id)]
        simp [hid]
      simpa [topIds] using hmm


/-! ### Sibling observations through the placement phase -/

theorem updateFirstTask_id_order (q : String) (f : Task → Task)
    (hf : ∀ u, (f u).id = u.id ∧ (f u).order = u.order) :
    ∀ t t2 : Task, updateFirstTask q f t = some t2 → t2.id = t.id ∧ t2.order = t.order
  | .mk i ti d c ca ua o cs p, t2 => by
    intro h
    rw [updateFirstTask] at h
    by_cases hi : i = q
    · rw [if_pos hi] at h
      simp only [Option.some_inj] at h
      subst h
      exact hf _
    · rw [if_neg hi] at h
      rcases Option.map_eq_some'.mp h with ⟨cs2, _, heq⟩
      subst heq
      exact ⟨rfl, rfl⟩

theorem pairsOf_updateFirstList (q : String) (f : Task → Task)
    (hf : ∀ u, (f u).id = u.id ∧ (f u).order = u.order) :
    ∀ l l2 : List Task, updateFirstList q f l = some l2 → pairsOf l2 = pairsOf l
  | [], l2 => by simp [updateFirstList]
  | t :: ts, l2 => by
    intro h
    rw [updateFirstList] at h
    rcases ht : updateFirstTask q f t with _ | t2
    · simp only [ht, Option.map_eq_some'] at h
      rcases h with ⟨l2e, hrec, heq⟩
      subst heq
      have ih := pairsOf_updateFirstList q f hf ts l2e hrec
      simp only [pairsOf, List.map_cons] at ih ⊢
      rw [ih]
    · simp only [ht, Option.some_inj] at h
      subst h
      rcases updateFirstTask_id_order q f hf t t2 ht with ⟨h1, h2⟩
      simp [pairsOf, h1, h2]

theorem withChildren_id_order (f : List Task → List Task) (u : Task) :
    ((u.withChildren (f u.children)).id = u.id ∧
      (u.withChildren (f u.children)).order = u.order) := by
  cases u
  exact ⟨rfl, rfl⟩

theorem pairsOf_applyAtLoc_some (p : String) (f : List Task → List Task) (l : List Task) :
    pairsOf (applyAtLoc (some p) f l) = pairsOf l := by
  have hsome : applyAtLoc (some p) f l
      = (updateFirstList p (fun u => u.withChildren (f u.children)) l).getD l := rfl
  rw [hsome]
  rcases hu : updateFirstList p (fun u => u.withChildren (f u.children)) l with _ | l2
  · rfl
  · simpa using pairsOf_updateFirstList p _ (fun u => withChildren_id_order f u) l l2 hu

theorem topIds_eq_pairs_fst (l : List Task) : topIds l = (pairsOf l).map Prod.fst := by
  simp [topIds, pairsOf, Function.comp]

theorem topOrders_eq_pairs_snd (l : List Task) : topOrders l = (pairsOf l).map Prod.snd := by
  simp [topOrders, pairsOf, Function.comp]

theorem topIds_applyAtLoc_some (p : String) (f : List Task → List Task) (l : List Task) :
    topIds (applyAtLoc (some p) f l) = topIds l := by
  rw [topIds_eq_pairs_fst, topIds_eq_pairs_fst, pairsOf_applyAtLoc_some]

theorem topIds_normalizeOrderFrom : ∀ (i : Nat) (l : List Task),
    topIds (normalizeOrderFrom i l) = topIds l
  | _, [] => rfl
  | i, t :: ts => by
    have ih := topIds_normalizeOrderFrom (i + 1) ts
    simp only [normalizeOrderFrom, topIds, List.map_cons, Task.id_withOrder] at ih ⊢
    rw [ih]

theorem topIds_normalizeOrder (l : List Task) : topIds (normalizeOrder l) = topIds l :=
  topIds_normalizeOrderFrom 0 l

theorem topIds_sortTasksRec_perm (l : List Task) :
    List.Perm (topIds (sortTasksRec l)) (topIds l) := by
  have h := (sortTasksRec_perm l).map Task.id
  have h2 : List.map Task.id (List.map sortTaskRec l) = List.map Task.id l := by
    rw [List.map_map]
    exact List.map_congr_left fun t _ => sortTaskRec_id t
  simpa [topIds, h2] using h

theorem mem_topIds_listInsertAt (n : Nat) (x : Task) (l : List Task) :
    x.id ∈ topIds (listInsertAt n x l) := by
  rw [topIds_listInsertAt]
  have h := (listInsertAt_perm n x.id (topIds l)).mem_iff (a := x.id)
  simp [h]

/-- Membership of an id in the top-level list survives the whole placement
phase when the destination is the top level. -/
theorem mem_topIds_placeTask_topdest (ownerLoc : Option String) (t1 : Task) (ord : Int)
    (forest1 : List Task) :
    t1.id ∈ topIds (placeTask ownerLoc none t1 ord forest1) := by
  unfold placeTask
  simp only [applyAtLoc]
  set forest2 := listInsertAt (clampPos ord forest1.length) t1 forest1 with hf2
  have m2 : t1.id ∈ topIds forest2 := mem_topIds_listInsertAt _ t1 forest1
  have m3 : t1.id ∈ topIds (normalizeOrder forest2) := by
    rwa [topIds_normalizeOrder]
  rcases ho : ownerLoc with _ | oid
  · simp only [if_pos rfl]
    exact ((topIds_sortTasksRec_perm (normalizeOrder forest2)).mem_iff).mpr m3
  · have hne : (some oid : Option String) ≠ none := by simp
    simp only [if_neg hne]
    have m4 : t1.id ∈ topIds (applyAtLoc (some oid) normalizeOrder (normalizeOrder forest2)) := by
      rwa [topIds_applyAtLoc_some]
    have m5 : t1.id ∈ topIds (sortTasksRec
        (applyAtLoc (some oid) normalizeOrder (normalizeOrder forest2))) :=
      ((topIds_sortTasksRec_perm _).mem_iff).mpr m4
    simpa [applyAtLoc, topIds_applyAtLoc_some] using
      (topIds_applyAtLoc_some oid sortTasksRec _).symm ▸ m5


/-! ### Claims C5 and C9: unresolvable destinations fall back to top level -/

/-- Shared core: when the requested parent id does not occur in the
post-splice forest, `updateTaskOrder` succeeds and leaves the moved task a
member of the top-level list. -/
theorem move_fallback_core (s : Store) (h : ensureInited s = true) (tid : String)
    (pid : String) (ord : Int) (now : Nat) (w : Bool)
    (rr : Option String × Task × List Task)
    (hext : extractTask tid s.tasks = some rr)
    (hpm : pid ∉ idsList rr.2.2) :
    (∃ t, (updateTaskOrder s tid ord (some pid) now w).1 = .ok (some t) ∧ t.id = tid) ∧
    tid ∈ topIds ((updateTaskOrder s tid ord (some pid) now w).2.tasks) := by
  obtain ⟨oLoc, t0, f1⟩ := rr
  have hid : t0.id = tid := (extractTask_some tid s.tasks _ hext).1
  have hdest : resolveDest (some pid) f1 = none := by
    have hr : resolveDest (some pid) f1
        = if (findInList pid f1).isSome then some pid else none := rfl
    rw [hr, (findInList_eq_none pid f1).mpr (by simpa using hpm)]
    rfl
  have ht1 : ((t0.withOrder ord).withUpdatedAt now).id = tid := by
    cases t0
    simpa using hid
  have hmem : tid ∈ topIds (placeTask oLoc (resolveDest (some pid) f1)
      ((t0.withOrder ord).withUpdatedAt now) ord f1) := by
    rw [hdest]
    have := mem_topIds_placeTask_topdest oLoc ((t0.withOrder ord).withUpdatedAt now) ord f1
    rwa [ht1] at this
  unfold updateTaskOrder
  rw [h]
  simp only [Bool.true_eq_false, if_false, hext]
  rcases findInList_mem_some tid _ (topIds_subset_idsList hmem) with ⟨u, hfind, huid⟩
  exact ⟨⟨u, by simp [hfind], huid⟩, by simpa [saveToDatabase_tasks] using hmem⟩

/-- C5: a move whose parent id resolves to no task in the forest does not
fail: it returns the moved task and places it in the top-level list. -/
theorem move_missing_parent_falls_back (s : Store) (h : ensureInited s = true)
    (tid : String) (hmem : tid ∈ idsList s.tasks) (pid : String)
    (hpm : pid ∉ idsList s.tasks) (ord : Int) (now : Nat) (w : Bool) :
    (∃ t, (updateTaskOrder s tid ord (some pid) now w).1 = .ok (some t) ∧ t.id = tid) ∧
    tid ∈ topIds ((updateTaskOrder s tid ord (some pid) now w).2.tasks) := by
  rcases hext : extractTask tid s.tasks with _ | rr
  · exact absurd ((extractTask_eq_none tid s.tasks).mp hext) (by simpa using hmem)
  · refine move_fallback_core s h tid pid ord now w rr hext ?_
    intro hc
    rcases extractTask_some tid s.tasks rr hext with ⟨_, hperm, _⟩
    exact hpm (hperm.mem_iff.mpr (by simp [hc]))

/-- Witness for C5: moving B under the nonexistent parent "nope". -/
theorem move_missing_parent_falls_back_witness :
    ensureInited exABC = true ∧ "B" ∈ idsList exABC.tasks ∧
    "nope" ∉ idsList exABC.tasks ∧
    ((∃ t, (updateTaskOrder exABC "B" 0 (some "nope") 7 true).1 = .ok (some t) ∧
        t.id = "B") ∧
      "B" ∈ topIds ((updateTaskOrder exABC "B" 0 (some "nope") 7 true).2.tasks)) :=
  ⟨rfl, by decide, by decide,
    move_missing_parent_falls_back exABC rfl "B" (by decide) "nope" (by decide) 0 7 true⟩

/-- C9: when the requested parent is the moved task itself or one of its
descendants, the parent lookup runs over the forest from which the task's
subtree was already spliced out, so it cannot resolve and the task is placed
at top level instead of creating a cycle.  (In this nested-list embedding a
forest is a tree by construction, so no reachable state can make a task its
own ancestor; this theorem captures the fallback that prevents the move from
trying.) -/
theorem move_into_own_subtree_falls_back (s : Store) (h : ensureInited s = true)
    (tid : String) (pid : String) (ord : Int) (now : Nat) (w : Bool)
    (hnd : (idsList s.tasks).Nodup)
    (rr : Option String × Task × List Task)
    (hext : extractTask tid s.tasks = some rr)
    (hsub : pid ∈ idsTask rr.2.1) :
    (∃ t, (updateTaskOrder s tid ord (some pid) now w).1 = .ok (some t) ∧ t.id = tid) ∧
    tid ∈ topIds ((updateTaskOrder s tid ord (some pid) now w).2.tasks) := by
  refine move_fallback_core s h tid pid ord now w rr hext ?_
  rcases extractTask_some tid s.tasks rr hext with ⟨_, hperm, _⟩
  have hnd2 : (idsTask rr.2.1 ++ idsList rr.2.2).Nodup := hperm.nodup_iff.mp hnd
  exact fun hc => (List.disjoint_of_nodup_append hnd2) hsub hc

/-- Witness for C9: moving X under its own child Y. -/
theorem move_into_own_subtree_falls_back_witness :
    ensureInited exDeep = true ∧ (idsList exDeep.tasks).Nodup ∧
    extractTask "X" exDeep.tasks
      = some (some "P", mkT "X" 0 [mkT "Y" 0 []], [mkT "P" 0 []]) ∧
    "Y" ∈ idsTask (mkT "X" 0 [mkT "Y" 0 []]) ∧
    ((∃ t, (updateTaskOrder exDeep "X" 0 (some "Y") 7 true).1 = .ok (some t) ∧
        t.id = "X") ∧
      "X" ∈ topIds ((updateTaskOrder exDeep "X" 0 (some "Y") 7 true).2.tasks)) :=
  ⟨rfl, by decide, rfl, by decide,
    move_into_own_subtree_falls_back exDeep rfl "X" "Y" 0 7 true (by decide)
      (some "P", mkT "X" 0 [mkT "Y" 0 []], [mkT "P" 0 []]) rfl (by decide)⟩


/-! ### Toward C1: order values after renormalization, find through the sort -/

theorem topOrders_normalizeOrderFrom : ∀ (i : Nat) (l : List Task),
    topOrders (normalizeOrderFrom i l)
      = (List.range l.length).map fun k => ((i + k : Nat) : Int)
  | _, [] => rfl
  | i, t :: ts => by
    have ih := topOrders_normalizeOrderFrom (i + 1) ts
    simp only [normalizeOrderFrom, topOrders, List.map_cons, Task.order_withOrder] at ih ⊢
    rw [ih, List.length_cons, List.range_succ_eq_map, List.map_cons, List.map_map]
    congr 1
    refine List.map_congr_left fun k _ => ?_
    simp only [Function.comp]
    push_cast
    omega

theorem topOrders_normalizeOrder (l : List Task) :
    topOrders (normalizeOrder l) = intRange l.length := by
  have h := topOrders_normalizeOrderFrom 0 l
  rw [show normalizeOrder l = normalizeOrderFrom 0 l from rfl, h, intRange]
  exact List.map_congr_left fun k _ => by simp [Int.ofNat_eq_natCast]

theorem length_normalizeOrderFrom : ∀ (i : Nat) (l : List Task),
    (normalizeOrderFrom i l).length = l.length
  | _, [] => rfl
  | i, t :: ts => by simp [normalizeOrderFrom, length_normalizeOrderFrom (i + 1) ts]

theorem sorted_normalizeOrder (l : List Task) : List.Sorted taskLE (normalizeOrder l) := by
  have key : ∀ (l2 : List Task) (i : Nat), List.Sorted taskLE (normalizeOrderFrom i l2) := by
    intro l2
    induction l2 with
    | nil => intro i; simp [normalizeOrderFrom]
    | cons t ts ih =>
      intro i
      have hmem : ∀ (j : Nat) (l3 : List Task) (u : Task), u ∈ normalizeOrderFrom j l3 →
          (j : Int) ≤ u.order := by
        intro j l3
        induction l3 generalizing j with
        | nil => simp [normalizeOrderFrom]
        | cons v vs ih2 =>
          intro u hu
          rcases List.mem_cons.mp hu with hu | hu
          · subst hu
            simp
          · have := ih2 (j + 1) u hu
            push_cast at this ⊢
            omega
      refine List.sorted_cons.mpr ⟨?_, ih (i + 1)⟩
      intro b hb
      have := hmem (i + 1) ts b hb
      simp only [taskLE, Task.order_withOrder]
      push_cast at this ⊢
      omega
  exact key l 0

theorem pairsOf_map_sortTaskRec (l : List Task) :
    pairsOf (l.map sortTaskRec) = pairsOf l := by
  simp only [pairsOf, List.map_map]
  exact List.map_congr_left fun t _ => by simp [Function.comp]

theorem pairsOf_sortTasksRec_of_sorted {l : List Task} (h : List.Sorted taskLE l) :
    pairsOf (sortTasksRec l) = pairsOf l := by
  rw [sortTasksRec_of_sorted h, pairsOf_map_sortTaskRec]

/-- Depth-first find is stable under permuting a sibling list whose combined
ids carry no duplicate. -/
theorem findInList_perm_of_nodup (q : String) :
    ∀ {l1 l2 : List Task}, List.Perm l1 l2 → (idsList l1).Nodup →
      findInList q l1 = findInList q l2 := by
  intro l1 l2 hperm
  induction hperm with
  | nil => intro _; rfl
  | cons x hp ih =>
    intro hnd
    rcases hx : findInTask q x with _ | u <;> simp [findInList, hx]
    refine ih ?_
    have h2 := hnd
    simp only [idsList] at h2
    exact h2.of_append_right
  | swap x y l =>
    intro hnd
    rcases hy : findInTask q y with _ | u <;> rcases hx : findInTask q x with _ | v <;>
      simp [findInList, hy, hx]
    exfalso
    have hqy : q ∈ idsTask y := by
      by_contra hc
      rw [← findInTask_eq_none q y] at hc
      simp [hy] at hc
    have hqx : q ∈ idsTask x := by
      by_contra hc
      rw [← findInTask_eq_none q x] at hc
      simp [hx] at hc
    have h2 := hnd
    simp only [idsList] at h2
    have hdisj := List.disjoint_of_nodup_append h2
    exact hdisj hqy (List.mem_append_left _ hqx)
  | trans h1 _ ih1 ih2 =>
    intro hnd
    have hnd2 := ((idsList_perm_of_perm h1).nodup_iff).mp hnd
    exact (ih1 hnd).trans (ih2 hnd2)


mutual

theorem findInTask_sortTaskRec (q : String) :
    ∀ t : Task, (idsTask t).Nodup →
      findInTask q (sortTaskRec t) = (findInTask q t).map sortTaskRec
  | .mk i ti d c ca ua o cs p, hnd => by
    by_cases hi : i = q
    · simp [sortTaskRec, findInTask, hi]
    · have hnd2 : (idsList cs).Nodup := by
        have h2 := hnd
        simp only [idsTask] at h2
        exact h2.of_cons
      simp only [sortTaskRec, findInTask, hi, if_false]
      exact findInList_sortTasksRec q cs hnd2

theorem findInList_mapSortTaskRec (q : String) :
    ∀ l : List Task, (idsList l).Nodup →
      findInList q (l.map sortTaskRec) = (findInList q l).map sortTaskRec
  | [], _ => rfl
  | t :: ts, hnd => by
    have hnd1 : (idsTask t).Nodup := by
      have h2 := hnd
      simp only [idsList] at h2
      exact h2.of_append_left
    have hnd2 : (idsList ts).Nodup := by
      have h2 := hnd
      simp only [idsList] at h2
      exact h2.of_append_right
    have ht := findInTask_sortTaskRec q t hnd1
    rcases hft : findInTask q t with _ | u <;> rw [hft] at ht <;>
      simp only [Option.map_none', Option.map_some'] at ht <;>
      simp [findInList, ht, hft]
    exact findInList_mapSortTaskRec q ts hnd2

theorem findInList_sortTasksRec (q : String) :
    ∀ l : List Task, (idsList l).Nodup →
      findInList q (sortTasksRec l) = (findInList q l).map sortTaskRec
  | l, hnd => by
    have hnd1 : (idsList (sortTasksRec l)).Nodup :=
      ((idsList_sortTasksRec l).nodup_iff).mpr hnd
    have h1 := findInList_perm_of_nodup q (sortTasksRec_perm l) hnd1
    rw [h1]
    exact findInList_mapSortTaskRec q l hnd

end


/-! ### Cross reads: one location's observation through a write elsewhere -/

/-- Child-pair reads pass through a first-level order renormalization. -/
theorem find_childPairs_normalizeOrderFrom (q : String) : ∀ (k : Nat) (cs : List Task),
    (findInList q (normalizeOrderFrom k cs)).map (fun u => pairsOf u.children)
      = (findInList q cs).map (fun u => pairsOf u.children)
  | _, [] => rfl
  | k, .mk i ti d c ca ua o cs2 p :: ts => by
    by_cases hi : i = q
    · simp [normalizeOrderFrom, findInList, findInTask, Task.withOrder, hi]
    · rcases hf : findInList q cs2 with _ | u
      · simp [normalizeOrderFrom, findInList, findInTask, Task.withOrder, hi, hf]
        exact find_childPairs_normalizeOrderFrom q (k + 1) ts
      · simp [normalizeOrderFrom, findInList, findInTask, Task.withOrder, hi, hf]

/-- Find passes through a splice whose spliced subtree does not hold the id. -/
theorem findInList_listInsertAt (q : String) (x : Task) (hqx : q ∉ idsTask x) :
    ∀ (n : Nat) (l : List Task), findInList q (listInsertAt n x l) = findInList q l
  | 0, l => by
    simp [listInsertAt, findInList, (findInTask_eq_none q x).mpr hqx]
  | _ + 1, [] => by
    simp [listInsertAt, findInList, (findInTask_eq_none q x).mpr hqx]
  | n + 1, y :: l => by
    rcases hy : findInTask q y with _ | u <;>
      simp [listInsertAt, findInList, hy, findInList_listInsertAt q x hqx n l]

mutual

theorem readT_norm (p q : String) (hpq : q ≠ p) :
    ∀ t t2 : Task,
      updateFirstTask p (fun u => u.withChildren (normalizeOrder u.children)) t = some t2 →
      (findInTask q t2).map (fun u => pairsOf u.children)
        = (findInTask q t).map (fun u => pairsOf u.children)
  | .mk i ti d c ca ua o cs p0, t2 => by
    intro h
    rw [updateFirstTask] at h
    by_cases hi : i = p
    · rw [if_pos hi] at h
      simp only [Option.some_inj] at h
      subst h
      have hiq : i ≠ q := fun hh => hpq (hh.symm.trans hi)
      simp only [findInTask, Task.withChildren_mk, Task.children_mk, hiq, if_false]
      exact find_childPairs_normalizeOrderFrom q 0 cs
    · rw [if_neg hi] at h
      rcases Option.map_eq_some'.mp h with ⟨cs2, hrec, heq⟩
      subst heq
      by_cases hiq : i = q
      · have hp := pairsOf_updateFirstList p _
          (fun u => withChildren_id_order normalizeOrder u) cs cs2 hrec
        simp only [pairsOf] at hp
        simp [findInTask, hiq, pairsOf, hp]
      · simp only [findInTask, Task.children_mk, hiq, if_false]
        exact readL_norm p q hpq cs cs2 hrec

theorem readL_norm (p q : String) (hpq : q ≠ p) :
    ∀ l l2 : List Task,
      updateFirstList p (fun u => u.withChildren (normalizeOrder u.children)) l = some l2 →
      (findInList q l2).map (fun u => pairsOf u.children)
        = (findInList q l).map (fun u => pairsOf u.children)
  | [], l2 => by simp [updateFirstList]
  | t :: ts, l2 => by
    intro h
    rw [updateFirstList] at h
    rcases hup : updateFirstTask p (fun u => u.withChildren (normalizeOrder u.children)) t
      with _ | t2
    · simp only [hup, Option.map_eq_some'] at h
      rcases h with ⟨l2e, hrec, heq⟩
      subst heq
      rcases hft : findInTask q t with _ | u <;> simp [findInList, hft]
      exact readL_norm p q hpq ts l2e hrec
    · simp only [hup, Option.some_inj] at h
      subst h
      have htask := readT_norm p q hpq t t2 hup
      rcases hft : findInTask q t with _ | u <;> rw [hft] at htask
      · have h2 : findInTask q t2 = none := by
          rcases hh : findInTask q t2 with _ | v
          · rfl
          · rw [hh] at htask
            simp at htask
        simp [findInList, hft, h2]
      · rcases hh : findInTask q t2 with _ | v <;> rw [hh] at htask
        · simp at htask
        · simp only [Option.map_some', Option.some_inj] at htask
          simp [findInList, hft, hh, htask]

end

mutual

theorem readT_ins (p q : String) (hpq : q ≠ p) (x : Task) (hqx : q ∉ idsTask x)
    (n : List Task → Nat) :
    ∀ t t2 : Task,
      updateFirstTask p (fun u => u.withChildren (listInsertAt (n u.children) x u.children)) t
        = some t2 →
      (findInTask q t2).map (fun u => pairsOf u.children)
        = (findInTask q t).map (fun u => pairsOf u.children)
  | .mk i ti d c ca ua o cs p0, t2 => by
    intro h
    rw [updateFirstTask] at h
    by_cases hi : i = p
    · rw [if_pos hi] at h
      simp only [Option.some_inj] at h
      subst h
      have hiq : i ≠ q := fun hh => hpq (hh.symm.trans hi)
      simp only [findInTask, Task.withChildren_mk, Task.children_mk, hiq, if_false]
      rw [findInList_listInsertAt q x hqx (n cs) cs]
    · rw [if_neg hi] at h
      rcases Option.map_eq_some'.mp h with ⟨cs2, hrec, heq⟩
      subst heq
      by_cases hiq : i = q
      · have hp := pairsOf_updateFirstList p _
          (fun u => withChildren_id_order (fun l => listInsertAt (n l) x l) u) cs cs2 hrec
        simp only [pairsOf] at hp
        simp [findInTask, hiq, pairsOf, hp]
      · simp only [findInTask, Task.children_mk, hiq, if_false]
        exact readL_ins p q hpq x hqx n cs cs2 hrec

theorem readL_ins (p q : String) (hpq : q ≠ p) (x : Task) (hqx : q ∉ idsTask x)
    (n : List Task → Nat) :
    ∀ l l2 : List Task,
      updateFirstList p (fun u => u.withChildren (listInsertAt (n u.children) x u.children)) l
        = some l2 →
      (findInList q l2).map (fun u => pairsOf u.children)
        = (findInList q l).map (fun u => pairsOf u.children)
  | [], l2 => by simp [updateFirstList]
  | t :: ts, l2 => by
    intro h
    rw [updateFirstList] at h
    rcases hup : updateFirstTask p
        (fun u => u.withChildren (listInsertAt (n u.children) x u.children)) t with _ | t2
    · simp only [hup, Option.map_eq_some'] at h
      rcases h with ⟨l2e, hrec, heq⟩
      subst heq
      rcases hft : findInTask q t with _ | u <;> simp [findInList, hft]
      exact readL_ins p q hpq x hqx n ts l2e hrec
    · simp only [hup, Option.some_inj] at h
      subst h
      have htask := readT_ins p q hpq x hqx n t t2 hup
      rcases hft : findInTask q t with _ | u <;> rw [hft] at htask
      · have h2 : findInTask q t2 = none := by
          rcases hh : findInTask q t2 with _ | v
          · rfl
          · rw [hh] at htask
            simp at htask
        simp [findInList, hft, h2]
      · rcases hh : findInTask q t2 with _ | v <;> rw [hh] at htask
        · simp at htask
        · simp only [Option.map_some', Option.some_inj] at htask
          simp [findInList, hft, hh, htask]

end


mutual

theorem readT_sortRec (p q : String) (hpq : q ≠ p) :
    ∀ t t2 : Task, (idsTask t).Nodup →
      (∀ u, findInTask q t = some u → List.Sorted taskLE u.children) →
      updateFirstTask p (fun u => u.withChildren (sortTasksRec u.children)) t = some t2 →
      (findInTask q t2).map (fun u => pairsOf u.children)
        = (findInTask q t).map (fun u => pairsOf u.children)
  | .mk i ti d c ca ua o cs p0, t2 => by
    intro hnd hsort h
    rw [updateFirstTask] at h
    have hndcs : (idsList cs).Nodup := by
      have h2 := hnd
      simp only [idsTask] at h2
      exact h2.of_cons
    by_cases hi : i = p
    · rw [if_pos hi] at h
      simp only [Option.some_inj] at h
      subst h
      have hiq : i ≠ q := fun hh => hpq (hh.symm.trans hi)
      simp only [findInTask, Task.withChildren_mk, Task.children_mk, hiq, if_false]
      rw [findInList_sortTasksRec q cs hndcs]
      rcases hf : findInList q cs with _ | u
      · rfl
      · have hsu : List.Sorted taskLE u.children :=
          hsort u (by simp [findInTask, hiq, hf])
        simp only [Option.map_some', Option.some_inj]
        rw [sortTaskRec_children]
        exact pairsOf_sortTasksRec_of_sorted hsu
    · rw [if_neg hi] at h
      rcases Option.map_eq_some'.mp h with ⟨cs2, hrec, heq⟩
      subst heq
      by_cases hiq : i = q
      · have hp := pairsOf_updateFirstList p _
          (fun u => withChildren_id_order sortTasksRec u) cs cs2 hrec
        simp only [pairsOf] at hp
        simp [findInTask, hiq, pairsOf, hp]
      · simp only [findInTask, Task.children_mk, hiq, if_false]
        refine readL_sortRec p q hpq cs cs2 hndcs ?_ hrec
        intro u hu
        exact hsort u (by simp [findInTask, hiq, hu])

theorem readL_sortRec (p q : String) (hpq : q ≠ p) :
    ∀ l l2 : List Task, (idsList l).Nodup →
      (∀ u, findInList q l = some u → List.Sorted taskLE u.children) →
      updateFirstList p (fun u => u.withChildren (sortTasksRec u.children)) l = some l2 →
      (findInList q l2).map (fun u => pairsOf u.children)
        = (findInList q l).map (fun u => pairsOf u.children)
  | [], l2 => by simp [updateFirstList]
  | t :: ts, l2 => by
    intro hnd hsort h
    rw [updateFirstList] at h
    have hnd1 : (idsTask t).Nodup := by
      have h2 := hnd
      simp only [idsList] at h2
      exact h2.of_append_left
    have hnd2 : (idsList ts).Nodup := by
      have h2 := hnd
      simp only [idsList] at h2
      exact h2.of_append_right
    rcases hup : updateFirstTask p (fun u => u.withChildren (sortTasksRec u.children)) t
      with _ | t2
    · simp only [hup, Option.map_eq_some'] at h
      rcases h with ⟨l2e, hrec, heq⟩
      subst heq
      rcases hft : findInTask q t with _ | u <;> simp [findInList, hft]
      refine readL_sortRec p q hpq ts l2e hnd2 ?_ hrec
      intro u hu
      exact hsort u (by simp [findInList, hft, hu])
    · simp only [hup, Option.some_inj] at h
      subst h
      have hsortT : ∀ u, findInTask q t = some u → List.Sorted taskLE u.children := by
        intro u hu
        exact hsort u (by simp [findInList, hu])
      have htask := readT_sortRec p q hpq t t2 hnd1 hsortT hup
      rcases hft : findInTask q t with _ | u <;> rw [hft] at htask
      · have h2 : findInTask q t2 = none := by
          rcases hh : findInTask q t2 with _ | v
          · rfl
          · rw [hh] at htask
            simp at htask
        simp [findInList, hft, h2]
      · rcases hh : findInTask q t2 with _ | v <;> rw [hh] at htask
        · simp at htask
        · simp only [Option.map_some', Option.some_inj] at htask
          simp [findInList, hft, hh, htask]

end


/-! ### Own reads: the written list read back -/

theorem findInTask_of_id (p : String) : ∀ u : Task, u.id = p → findInTask p u = some u
  | .mk i ti d c ca ua o cs p0 => by
    intro h
    simp only [Task.id_mk] at h
    simp [findInTask, h]

mutual

theorem findInTask_updateFirstTask (p : String) (g : Task → Task)
    (hg : ∀ u, (g u).id = u.id) :
    ∀ t t2 : Task, updateFirstTask p g t = some t2 →
      ∃ u, findInTask p t = some u ∧ findInTask p t2 = some (g u)
  | .mk i ti d c ca ua o cs p0, t2 => by
    intro h
    rw [updateFirstTask] at h
    by_cases hi : i = p
    · rw [if_pos hi] at h
      simp only [Option.some_inj] at h
      subst h
      exact ⟨_, by simp [findInTask, hi], findInTask_of_id p _ ((hg _).trans hi)⟩
    · rw [if_neg hi] at h
      rcases Option.map_eq_some'.mp h with ⟨cs2, hrec, heq⟩
      subst heq
      rcases findInList_updateFirstList p g hg cs cs2 hrec with ⟨u, hf1, hf2⟩
      exact ⟨u, by simp [findInTask, hi, hf1], by simp [findInTask, hi, hf2]⟩

theorem findInList_updateFirstList (p : String) (g : Task → Task)
    (hg : ∀ u, (g u).id = u.id) :
    ∀ l l2 : List Task, updateFirstList p g l = some l2 →
      ∃ u, findInList p l = some u ∧ findInList p l2 = some (g u)
  | [], l2 => by simp [updateFirstList]
  | t :: ts, l2 => by
    intro h
    rw [updateFirstList] at h
    rcases hup : updateFirstTask p g t with _ | t2
    · simp only [hup, Option.map_eq_some'] at h
      rcases h with ⟨l2e, hrec, heq⟩
      subst heq
      rcases findInList_updateFirstList p g hg ts l2e hrec with ⟨u, hf1, hf2⟩
      have hnone : findInTask p t = none := by
        rw [findInTask_eq_none]
        exact (updateFirstTask_eq_none p g t).mp hup
      exact ⟨u, by simp [findInList, hnone, hf1], by simp [findInList, hnone, hf2]⟩
    · simp only [hup, Option.some_inj] at h
      subst h
      rcases findInTask_updateFirstTask p g hg t t2 hup with ⟨u, hf1, hf2⟩
      exact ⟨u, by simp [findInList, hf1], by simp [findInList, hf2]⟩

end

theorem sibListAt_applyAtLoc_own (loc : Option String) (f : List Task → List Task)
    (l : List Task) (hval : locValid loc l) :
    sibListAt (applyAtLoc loc f l) loc = f (sibListAt l loc) := by
  cases loc with
  | none => rfl
  | some p =>
    simp only [locValid] at hval
    rcases hfind : findInList p l with _ | u
    · exact absurd ((findInList_eq_none p l).mp hfind) (by simpa using hval)
    · have happ : applyAtLoc (some p) f l
          = (updateFirstList p (fun u => u.withChildren (f u.children)) l).getD l := rfl
      rcases hup : updateFirstList p (fun u => u.withChildren (f u.children)) l with _ | l2
      · exact absurd ((updateFirstList_eq_none p _ l).mp hup) (by simpa using hval)
      · rcases findInList_updateFirstList p _
          (fun u => by cases u; rfl) l l2 hup with ⟨u2, hf1, hf2⟩
        rw [hfind] at hf1
        simp only [Option.some_inj] at hf1
        subst hf1
        simp only [happ, hup, Option.getD_some, sibListAt, hf2, hfind]
        simp

theorem locValid_of_readObs_some {loc : Option String} {l : List Task}
    {ps : List (String × Int)} (h : readObs l loc = some ps) : locValid loc l := by
  cases loc with
  | none => trivial
  | some p =>
    simp only [readObs, Option.map_eq_some'] at h
    rcases h with ⟨u, hu, _⟩
    simp only [locValid]
    by_contra hc
    rw [← findInList_eq_none p l] at hc
    simp [hu] at hc

theorem readObs_eq_of_valid (l : List Task) (loc : Option String) (hval : locValid loc l) :
    readObs l loc = some (pairsOf (sibListAt l loc)) := by
  cases loc with
  | none => rfl
  | some p =>
    simp only [locValid] at hval
    rcases hfind : findInList p l with _ | u
    · exact absurd ((findInList_eq_none p l).mp hfind) (by simpa using hval)
    · simp [readObs, sibListAt, hfind]


/-! ### Id inventories through the placement writes -/

theorem idsList_normalizeOrderFrom : ∀ (i : Nat) (l : List Task),
    idsList (normalizeOrderFrom i l) = idsList l
  | _, [] => rfl
  | i, t :: ts => by
    cases t
    simp [normalizeOrderFrom, idsList, idsTask, Task.withOrder,
      idsList_normalizeOrderFrom (i + 1) ts]

theorem idsList_normalizeOrder (l : List Task) : idsList (normalizeOrder l) = idsList l :=
  idsList_normalizeOrderFrom 0 l

mutual

theorem idsTask_updateFirstTask (p : String) (g : Task → Task) (X : List String)
    (hg : ∀ u, List.Perm (idsTask (g u)) (X ++ idsTask u)) :
    ∀ t t2 : Task, updateFirstTask p g t = some t2 →
      List.Perm (idsTask t2) (X ++ idsTask t)
  | .mk i ti d c ca ua o cs p0, t2 => by
    intro h
    rw [updateFirstTask] at h
    by_cases hi : i = p
    · rw [if_pos hi] at h
      simp only [Option.some_inj] at h
      subst h
      exact hg _
    · rw [if_neg hi] at h
      rcases Option.map_eq_some'.mp h with ⟨cs2, hrec, heq⟩
      subst heq
      have hperm := idsList_updateFirstList p g X hg cs cs2 hrec
      simp only [idsTask_def, Task.id_mk, Task.children_mk]
      exact ((hperm.cons i).trans List.perm_middle.symm)

theorem idsList_updateFirstList (p : String) (g : Task → Task) (X : List String)
    (hg : ∀ u, List.Perm (idsTask (g u)) (X ++ idsTask u)) :
    ∀ l l2 : List Task, updateFirstList p g l = some l2 →
      List.Perm (idsList l2) (X ++ idsList l)
  | [], l2 => by simp [updateFirstList]
  | t :: ts, l2 => by
    intro h
    rw [updateFirstList] at h
    rcases hup : updateFirstTask p g t with _ | t2
    · simp only [hup, Option.map_eq_some'] at h
      rcases h with ⟨l2e, hrec, heq⟩
      subst heq
      have hperm := idsList_updateFirstList p g X hg ts l2e hrec
      simp only [idsList]
      exact (hperm.append_left (idsTask t)).trans
        (List.perm_append_comm_assoc (idsTask t) X (idsList ts))
    · simp only [hup, Option.some_inj] at h
      subst h
      have hperm := idsTask_updateFirstTask p g X hg t t2 hup
      simp only [idsList]
      refine (hperm.append_right (idsList ts)).trans ?_
      rw [List.append_assoc]

end

theorem idsList_applyAtLoc_norm_perm (loc : Option String) (l : List Task) :
    List.Perm (idsList (applyAtLoc loc normalizeOrder l)) (idsList l) := by
  cases loc with
  | none =>
    rw [show applyAtLoc none normalizeOrder l = normalizeOrder l from rfl,
      idsList_normalizeOrder]
  | some p =>
    have happ : applyAtLoc (some p) normalizeOrder l
        = (updateFirstList p (fun u => u.withChildren (normalizeOrder u.children)) l).getD l :=
      rfl
    rcases hup : updateFirstList p (fun u => u.withChildren (normalizeOrder u.children)) l
      with _ | l2
    · simp [happ, hup]
    · have hperm := idsList_updateFirstList p _ []
        (fun u => by
          cases u with
          | mk i ti d c ca ua o cs p0 =>
            simp [idsTask, normalizeOrder, idsList_normalizeOrderFrom])
        l l2 hup
      simpa [happ, hup] using hperm

theorem idsList_applyAtLoc_sortRec_perm (loc : Option String) (l : List Task) :
    List.Perm (idsList (applyAtLoc loc sortTasksRec l)) (idsList l) := by
  cases loc with
  | none => exact idsList_sortTasksRec l
  | some p =>
    have happ : applyAtLoc (some p) sortTasksRec l
        = (updateFirstList p (fun u => u.withChildren (sortTasksRec u.children)) l).getD l :=
      rfl
    rcases hup : updateFirstList p (fun u => u.withChildren (sortTasksRec u.children)) l
      with _ | l2
    · simp [happ, hup]
    · have hperm := idsList_updateFirstList p _ []
        (fun u => by
          cases u with
          | mk i ti d c ca ua o cs p0 =>
            simpa [idsTask] using (idsList_sortTasksRec cs).cons i)
        l l2 hup
      simpa [happ, hup] using hperm

theorem idsList_applyAtLoc_ins_perm (loc : Option String) (x : Task)
    (n : List Task → Nat) (l : List Task) (hval : locValid loc l) :
    List.Perm (idsList (applyAtLoc loc (fun cs => listInsertAt (n cs) x cs) l))
      (idsTask x ++ idsList l) := by
  cases loc with
  | none => exact idsList_listInsertAt_perm (n l) x l
  | some p =>
    have happ : applyAtLoc (some p) (fun cs => listInsertAt (n cs) x cs) l
        = (updateFirstList p
            (fun u => u.withChildren (listInsertAt (n u.children) x u.children)) l).getD l :=
      rfl
    rcases hup : updateFirstList p
        (fun u => u.withChildren (listInsertAt (n u.children) x u.children)) l with _ | l2
    · exact absurd ((updateFirstList_eq_none p _ l).mp hup) (by simpa [locValid] using hval)
    · have hperm := idsList_updateFirstList p _ (idsTask x)
        (fun u => by
          cases u with
          | mk i ti d c ca ua o cs p0 =>
            simpa [idsTask] using
              ((idsList_listInsertAt_perm (n cs) x cs).cons i).trans List.perm_middle.symm)
        l l2 hup
      simpa [happ, hup] using hperm


/-! ### readObs wrappers for each write kind -/

theorem readObs_top_applyAtLoc_some (p : String) (f : List Task → List Task) (l : List Task) :
    readObs (applyAtLoc (some p) f l) none = readObs l none := by
  simp [readObs, pairsOf_applyAtLoc_some]

theorem readObs_norm_some (ploc : Option String) (qid : String) (hne : some qid ≠ ploc)
    (l : List Task) :
    readObs (applyAtLoc ploc normalizeOrder l) (some qid) = readObs l (some qid) := by
  cases ploc with
  | none =>
    rw [show applyAtLoc none normalizeOrder l = normalizeOrder l from rfl]
    exact find_childPairs_normalizeOrderFrom qid 0 l
  | some p =>
    have hqp : qid ≠ p := fun hh => hne (by rw [hh])
    have happ : applyAtLoc (some p) normalizeOrder l
        = (updateFirstList p (fun u => u.withChildren (normalizeOrder u.children)) l).getD l :=
      rfl
    rcases hup : updateFirstList p (fun u => u.withChildren (normalizeOrder u.children)) l
      with _ | l2
    · simp [happ, hup]
    · simp only [happ, hup, Option.getD_some, readObs]
      exact readL_norm p qid hqp l l2 hup

theorem readObs_ins_some (ploc : Option String) (qid : String) (hne : some qid ≠ ploc)
    (x : Task) (hqx : qid ∉ idsTask x) (n : List Task → Nat) (l : List Task) :
    readObs (applyAtLoc ploc (fun cs => listInsertAt (n cs) x cs) l) (some qid)
      = readObs l (some qid) := by
  cases ploc with
  | none =>
    rw [show applyAtLoc none (fun cs => listInsertAt (n cs) x cs) l
        = listInsertAt (n l) x l from rfl]
    simp [readObs, findInList_listInsertAt qid x hqx (n l) l]
  | some p =>
    have hqp : qid ≠ p := fun hh => hne (by rw [hh])
    have happ : applyAtLoc (some p) (fun cs => listInsertAt (n cs) x cs) l
        = (updateFirstList p
            (fun u => u.withChildren (listInsertAt (n u.children) x u.children)) l).getD l :=
      rfl
    rcases hup : updateFirstList p
        (fun u => u.withChildren (listInsertAt (n u.children) x u.children)) l with _ | l2
    · simp [happ, hup]
    · simp only [happ, hup, Option.getD_some, readObs]
      exact readL_ins p qid hqp x hqx n l l2 hup

theorem readObs_sortRec_some (ploc : Option String) (qid : String) (hne : some qid ≠ ploc)
    (l : List Task) (hnd : (idsList l).Nodup)
    (hsort : ∀ u, findInList qid l = some u → List.Sorted taskLE u.children) :
    readObs (applyAtLoc ploc sortTasksRec l) (some qid) = readObs l (some qid) := by
  cases ploc with
  | none =>
    rw [show applyAtLoc none sortTasksRec l = sortTasksRec l from rfl]
    simp only [readObs]
    rw [findInList_sortTasksRec qid l hnd]
    rcases hf : findInList qid l with _ | u
    · rfl
    · simp only [Option.map_some', Option.some_inj]
      rw [sortTaskRec_children]
      exact pairsOf_sortTasksRec_of_sorted (hsort u hf)
  | some p =>
    have hqp : qid ≠ p := fun hh => hne (by rw [hh])
    have happ : applyAtLoc (some p) sortTasksRec l
        = (updateFirstList p (fun u => u.withChildren (sortTasksRec u.children)) l).getD l :=
      rfl
    rcases hup : updateFirstList p (fun u => u.withChildren (sortTasksRec u.children)) l
      with _ | l2
    · simp [happ, hup]
    · simp only [happ, hup, Option.getD_some, readObs]
      exact readL_sortRec p qid hqp l l2 hnd hsort hup

/-! ### Pairs determine ids, orders, and renormalization -/

theorem pairsOf_eq_zip (l : List Task) : pairsOf l = (topIds l).zip (topOrders l) := by
  induction l with
  | nil => rfl
  | cons t ts ih =>
    simp only [pairsOf, topIds, topOrders, List.map_cons, List.zip_cons_cons]
    simp only [pairsOf, topIds, topOrders] at ih
    rw [ih]

theorem length_pairsOf (l : List Task) : (pairsOf l).length = l.length := by
  simp [pairsOf]

theorem length_topIds (l : List Task) : (topIds l).length = l.length := by
  simp [topIds]

theorem length_topOrders (l : List Task) : (topOrders l).length = l.length := by
  simp [topOrders]

theorem topIds_of_pairsOf_eq {l1 l2 : List Task} (h : pairsOf l1 = pairsOf l2) :
    topIds l1 = topIds l2 := by
  rw [topIds_eq_pairs_fst, topIds_eq_pairs_fst, h]

theorem topOrders_of_pairsOf_eq {l1 l2 : List Task} (h : pairsOf l1 = pairsOf l2) :
    topOrders l1 = topOrders l2 := by
  rw [topOrders_eq_pairs_snd, topOrders_eq_pairs_snd, h]

theorem length_of_pairsOf_eq {l1 l2 : List Task} (h : pairsOf l1 = pairsOf l2) :
    l1.length = l2.length := by
  rw [← length_pairsOf, ← length_pairsOf, h]

theorem pairsOf_normalizeOrder_eq_of_topIds {l1 l2 : List Task}
    (h : topIds l1 = topIds l2) :
    pairsOf (normalizeOrder l1) = pairsOf (normalizeOrder l2) := by
  have hlen : l1.length = l2.length := by
    rw [← length_topIds, ← length_topIds, h]
  rw [pairsOf_eq_zip, pairsOf_eq_zip, topIds_normalizeOrder, topIds_normalizeOrder,
    topOrders_normalizeOrder, topOrders_normalizeOrder, h, hlen]

theorem length_listInsertAt {α : Type} (n : Nat) (x : α) (l : List α) :
    (listInsertAt n x l).length = l.length + 1 := by
  have h := (listInsertAt_perm n x l).length_eq
  simpa using h

/-! ### Clamp characterization -/

theorem clampPos_spec (ord : Int) (len : Nat) :
    clampPos ord len ≤ len ∧
    (0 ≤ ord → ord ≤ (len : Int) → (clampPos ord len : Int) = ord) ∧
    (ord < 0 → clampPos ord len = 0) ∧
    ((len : Int) < ord → clampPos ord len = len) := by
  unfold clampPos
  refine ⟨?_, ?_, ?_, ?_⟩
  · omega
  · intro h1 h2
    omega
  · intro h1
    omega
  · intro h1
    omega


/-! ### Assembly: observations of the placement phase -/

theorem sorted_taskLE_iff_pairs (l : List Task) :
    List.Sorted taskLE l ↔
      List.Pairwise (fun a b : String × Int => a.2 ≤ b.2) (pairsOf l) := by
  unfold List.Sorted pairsOf
  rw [List.pairwise_map]
  rfl

theorem sorted_of_pairsOf_eq {l1 l2 : List Task} (h : pairsOf l1 = pairsOf l2)
    (hs : List.Sorted taskLE l1) : List.Sorted taskLE l2 := by
  rw [sorted_taskLE_iff_pairs] at hs ⊢
  rwa [h] at hs

theorem locValid_of_perm {loc : Option String} {l2 : List Task} {Y : List String}
    (hperm : List.Perm (idsList l2) Y) (hmem : ∀ p, loc = some p → p ∈ Y) :
    locValid loc l2 := by
  cases loc with
  | none => trivial
  | some p => exact hperm.mem_iff.mpr (hmem p rfl)

theorem sibListAt_children_of_find {forest : List Task} {pid : String} {u : Task}
    (h : findInList pid forest = some u) : sibListAt forest (some pid) = u.children := by
  simp [sibListAt, h]

/-- The destination sibling list after the placement phase: its id/order
pairs are those of the renormalized post-splice list. -/
theorem placeTask_pairs_dest (ownerLoc destLoc : Option String) (t1 : Task) (ord : Int)
    (f1 : List Task) (hnd : (idsTask t1 ++ idsList f1).Nodup)
    (hval : locValid destLoc f1) :
    readObs (placeTask ownerLoc destLoc t1 ord f1) destLoc
      = some (pairsOf (normalizeOrder (listInsertAt
          (clampPos ord (sibListAt f1 destLoc).length) t1 (sibListAt f1 destLoc)))) := by
  have f2 := applyAtLoc destLoc (fun l => listInsertAt (clampPos ord l.length) t1 l) f1
  set F2 := applyAtLoc destLoc (fun l => listInsertAt (clampPos ord l.length) t1 l) f1
    with hF2def
  set F3 := applyAtLoc destLoc normalizeOrder F2 with hF3def
  set F4 := if ownerLoc = destLoc then F3 else applyAtLoc ownerLoc normalizeOrder F3
    with hF4def
  set F5 := applyAtLoc destLoc sortTasksRec F4 with hF5def
  have hplace : placeTask ownerLoc destLoc t1 ord f1
      = if ownerLoc = destLoc then F5 else applyAtLoc ownerLoc sortTasksRec F5 := rfl
  -- id inventories
  have hids2 : List.Perm (idsList F2) (idsTask t1 ++ idsList f1) :=
    idsList_applyAtLoc_ins_perm destLoc t1 (fun cs => clampPos ord cs.length) f1 hval
  have hids3 : List.Perm (idsList F3) (idsTask t1 ++ idsList f1) :=
    (idsList_applyAtLoc_norm_perm destLoc F2).trans hids2
  have hids4 : List.Perm (idsList F4) (idsTask t1 ++ idsList f1) := by
    rw [hF4def]
    by_cases hsame : ownerLoc = destLoc
    · simpa [hsame] using hids3
    · simp only [hsame, if_false]
      exact (idsList_applyAtLoc_norm_perm ownerLoc F3).trans hids3
  have hids5 : List.Perm (idsList F5) (idsTask t1 ++ idsList f1) :=
    (idsList_applyAtLoc_sortRec_perm destLoc F4).trans hids4
  -- validity of the destination location at each stage
  have hvmem : ∀ p, destLoc = some p → p ∈ idsTask t1 ++ idsList f1 := by
    intro p hp
    subst hp
    simp only [locValid] at hval
    exact List.mem_append_right _ hval
  have hval2 : locValid destLoc F2 := locValid_of_perm hids2 hvmem
  have hval3 : locValid destLoc F3 := locValid_of_perm hids3 hvmem
  have hval4 : locValid destLoc F4 := locValid_of_perm hids4 hvmem
  have hval5 : locValid destLoc F5 := locValid_of_perm hids5 hvmem
  -- the spliced list, then the renormalized list
  have h2 : sibListAt F2 destLoc
      = listInsertAt (clampPos ord (sibListAt f1 destLoc).length) t1 (sibListAt f1 destLoc) :=
    sibListAt_applyAtLoc_own destLoc _ f1 hval
  have h3 : sibListAt F3 destLoc = normalizeOrder (sibListAt F2 destLoc) :=
    sibListAt_applyAtLoc_own destLoc _ F2 hval2
  -- stage 4 read (pairs only)
  have h4 : readObs F4 destLoc = readObs F3 destLoc := by
    rw [hF4def]
    by_cases hsame : ownerLoc = destLoc
    · simp [hsame]
    · simp only [hsame, if_false]
      cases destLoc with
      | none =>
        rcases ho : ownerLoc with _ | oid
        · exact absurd (ho ▸ hsame) (by simp [ho])
        · exact readObs_top_applyAtLoc_some oid normalizeOrder F3
      | some pid =>
        exact readObs_norm_some ownerLoc pid (fun hh => hsame hh.symm) F3
  have hpairs4 : readObs F4 destLoc
      = some (pairsOf (normalizeOrder (sibListAt F2 destLoc))) := by
    rw [h4, readObs_eq_of_valid F3 destLoc hval3, h3]
  -- the stage-4 destination list is sorted (its pairs are the normalized ones)
  have hpairs4v : pairsOf (sibListAt F4 destLoc)
      = pairsOf (normalizeOrder (sibListAt F2 destLoc)) := by
    have hv := readObs_eq_of_valid F4 destLoc hval4
    rw [hv] at hpairs4
    exact Option.some_inj.mp hpairs4
  have hsorted4 : List.Sorted taskLE (sibListAt F4 destLoc) :=
    sorted_of_pairsOf_eq hpairs4v.symm (sorted_normalizeOrder _)
  -- stage 5: the destination list is recursively sorted in place
  have h5 : sibListAt F5 destLoc = sortTasksRec (sibListAt F4 destLoc) :=
    sibListAt_applyAtLoc_own destLoc _ F4 hval4
  have hpairs5 : pairsOf (sibListAt F5 destLoc)
      = pairsOf (normalizeOrder (sibListAt F2 destLoc)) := by
    rw [h5, pairsOf_sortTasksRec_of_sorted hsorted4, hpairs4v]
  have hsorted5 : List.Sorted taskLE (sibListAt F5 destLoc) :=
    sorted_of_pairsOf_eq hpairs5.symm (sorted_normalizeOrder _)
  -- stage 6
  have h6 : readObs (placeTask ownerLoc destLoc t1 ord f1) destLoc = readObs F5 destLoc := by
    rw [hplace]
    by_cases hsame : ownerLoc = destLoc
    · simp [hsame]
    · simp only [hsame, if_false]
      cases destLoc with
      | none =>
        rcases ho : ownerLoc with _ | oid
        · exact absurd (ho ▸ hsame) (by simp [ho])
        · exact readObs_top_applyAtLoc_some oid sortTasksRec F5
      | some pid =>
        refine readObs_sortRec_some ownerLoc pid (fun hh => hsame hh.symm) F5
          (hids5.nodup_iff.mpr hnd) ?_
        intro u hu
        have := sibListAt_children_of_find hu
        rw [← this]
        exact hsorted5
  rw [h6, readObs_eq_of_valid F5 destLoc hval5, hpairs5, h2]


theorem locValid_resolveDest (np : Option String) (f1 : List Task) :
    locValid (resolveDest np f1) f1 := by
  cases np with
  | none => trivial
  | some pid =>
    simp only [resolveDest]
    rcases hf : findInList pid f1 with _ | u
    · simp [locValid]
    · simp only [Option.isSome_some, if_true, locValid]
      by_contra hc
      rw [← findInList_eq_none pid f1] at hc
      simp [hf] at hc

/-- The source sibling list after the placement phase, when distinct from
the destination: its id/order pairs are those of its renormalization. -/
theorem placeTask_pairs_owner (ownerLoc destLoc : Option String) (t1 : Task) (ord : Int)
    (f1 : List Task) (hne : ownerLoc ≠ destLoc)
    (hnd : (idsTask t1 ++ idsList f1).Nodup)
    (hval : locValid destLoc f1) (hoval : locValid ownerLoc f1)
    (hox : ∀ oid, ownerLoc = some oid → oid ∉ idsTask t1) :
    readObs (placeTask ownerLoc destLoc t1 ord f1) ownerLoc
      = some (pairsOf (normalizeOrder (sibListAt f1 ownerLoc))) := by
  set F2 := applyAtLoc destLoc (fun l => listInsertAt (clampPos ord l.length) t1 l) f1
    with hF2def
  set F3 := applyAtLoc destLoc normalizeOrder F2 with hF3def
  set F4 := if ownerLoc = destLoc then F3 else applyAtLoc ownerLoc normalizeOrder F3
    with hF4def
  set F5 := applyAtLoc destLoc sortTasksRec F4 with hF5def
  have hplace : placeTask ownerLoc destLoc t1 ord f1
      = if ownerLoc = destLoc then F5 else applyAtLoc ownerLoc sortTasksRec F5 := rfl
  have hF4 : F4 = applyAtLoc ownerLoc normalizeOrder F3 := by
    rw [hF4def, if_neg hne]
  have hplace2 : placeTask ownerLoc destLoc t1 ord f1
      = applyAtLoc ownerLoc sortTasksRec F5 := by
    rw [hplace, if_neg hne]
  -- id inventories
  have hids2 : List.Perm (idsList F2) (idsTask t1 ++ idsList f1) :=
    idsList_applyAtLoc_ins_perm destLoc t1 (fun cs => clampPos ord cs.length) f1 hval
  have hids3 : List.Perm (idsList F3) (idsTask t1 ++ idsList f1) :=
    (idsList_applyAtLoc_norm_perm destLoc F2).trans hids2
  have hids4 : List.Perm (idsList F4) (idsTask t1 ++ idsList f1) := by
    rw [hF4]
    exact (idsList_applyAtLoc_norm_perm ownerLoc F3).trans hids3
  have hids5 : List.Perm (idsList F5) (idsTask t1 ++ idsList f1) :=
    (idsList_applyAtLoc_sortRec_perm destLoc F4).trans hids4
  have homem : ∀ p, ownerLoc = some p → p ∈ idsTask t1 ++ idsList f1 := by
    intro p hp
    rw [hp] at hoval
    exact List.mem_append_right _ hoval
  have hoval4 : locValid ownerLoc F4 := locValid_of_perm hids4 homem
  have hoval5 : locValid ownerLoc F5 := locValid_of_perm hids5 homem
  -- stages 2 and 3 are cross-writes at the destination
  have h2o : readObs F2 ownerLoc = readObs f1 ownerLoc := by
    rcases ho : ownerLoc with _ | oid
    · rcases hd : destLoc with _ | pid
      · exact absurd (ho.trans hd.symm) hne
      · rw [hF2def, hd]
        exact readObs_top_applyAtLoc_some pid _ f1
    · have hne2 : some oid ≠ destLoc := ho ▸ hne
      exact readObs_ins_some destLoc oid hne2 t1 (hox oid ho)
        (fun cs => clampPos ord cs.length) f1
  have h3o : readObs F3 ownerLoc = readObs F2 ownerLoc := by
    rcases ho : ownerLoc with _ | oid
    · rcases hd : destLoc with _ | pid
      · exact absurd (ho.trans hd.symm) hne
      · rw [hF3def, hd]
        exact readObs_top_applyAtLoc_some pid normalizeOrder F2
    · have hne2 : some oid ≠ destLoc := ho ▸ hne
      exact readObs_norm_some destLoc oid hne2 F2
  have hobs3 : readObs F3 ownerLoc = some (pairsOf (sibListAt f1 ownerLoc)) := by
    rw [h3o, h2o, readObs_eq_of_valid f1 ownerLoc hoval]
  have hoval3 : locValid ownerLoc F3 := locValid_of_readObs_some hobs3
  -- stage 4 renormalizes the source list in place
  have h4own : sibListAt F4 ownerLoc = normalizeOrder (sibListAt F3 ownerLoc) := by
    rw [hF4]
    exact sibListAt_applyAtLoc_own ownerLoc _ F3 hoval3
  have hpair3 : pairsOf (sibListAt F3 ownerLoc) = pairsOf (sibListAt f1 ownerLoc) := by
    have hv := readObs_eq_of_valid F3 ownerLoc hoval3
    rw [hv] at hobs3
    exact Option.some_inj.mp hobs3
  have hpairs4 : pairsOf (sibListAt F4 ownerLoc)
      = pairsOf (normalizeOrder (sibListAt f1 ownerLoc)) := by
    rw [h4own]
    exact pairsOf_normalizeOrder_eq_of_topIds (topIds_of_pairsOf_eq hpair3)
  have hsorted4 : List.Sorted taskLE (sibListAt F4 ownerLoc) :=
    sorted_of_pairsOf_eq hpairs4.symm (sorted_normalizeOrder _)
  -- stage 5 is a cross-write at the destination
  have h5o : readObs F5 ownerLoc = readObs F4 ownerLoc := by
    rcases ho : ownerLoc with _ | oid
    · rcases hd : destLoc with _ | pid
      · exact absurd (ho.trans hd.symm) hne
      · rw [hF5def, hd]
        exact readObs_top_applyAtLoc_some pid sortTasksRec F4
    · have hne2 : some oid ≠ destLoc := ho ▸ hne
      refine readObs_sortRec_some destLoc oid hne2 F4 (hids4.nodup_iff.mpr hnd) ?_
      intro u hu
      rw [← sibListAt_children_of_find hu]
      exact ho ▸ hsorted4
  have hpairs5 : pairsOf (sibListAt F5 ownerLoc)
      = pairsOf (normalizeOrder (sibListAt f1 ownerLoc)) := by
    have hv5 := readObs_eq_of_valid F5 ownerLoc hoval5
    have hv4 := readObs_eq_of_valid F4 ownerLoc hoval4
    have hh := h5o
    rw [hv5, hv4] at hh
    rw [Option.some_inj.mp hh, hpairs4]
  have hsorted5 : List.Sorted taskLE (sibListAt F5 ownerLoc) :=
    sorted_of_pairsOf_eq hpairs5.symm (sorted_normalizeOrder _)
  -- stage 6 recursively sorts the (already sorted) source list in place
  have hvalF : locValid ownerLoc (applyAtLoc ownerLoc sortTasksRec F5) :=
    locValid_of_perm ((idsList_applyAtLoc_sortRec_perm ownerLoc F5).trans hids5) homem
  have hfin : sibListAt (applyAtLoc ownerLoc sortTasksRec F5) ownerLoc
      = sortTasksRec (sibListAt F5 ownerLoc) :=
    sibListAt_applyAtLoc_own ownerLoc _ F5 hoval5
  rw [hplace2, readObs_eq_of_valid _ ownerLoc hvalF, hfin,
    pairsOf_sortTasksRec_of_sorted hsorted5, hpairs5]


theorem idsList_placeTask_perm (ownerLoc destLoc : Option String) (t1 : Task) (ord : Int)
    (f1 : List Task) (hval : locValid destLoc f1) :
    List.Perm (idsList (placeTask ownerLoc destLoc t1 ord f1))
      (idsTask t1 ++ idsList f1) := by
  set F2 := applyAtLoc destLoc (fun l => listInsertAt (clampPos ord l.length) t1 l) f1
    with hF2def
  set F3 := applyAtLoc destLoc normalizeOrder F2 with hF3def
  set F4 := if ownerLoc = destLoc then F3 else applyAtLoc ownerLoc normalizeOrder F3
    with hF4def
  set F5 := applyAtLoc destLoc sortTasksRec F4 with hF5def
  have hplace : placeTask ownerLoc destLoc t1 ord f1
      = if ownerLoc = destLoc then F5 else applyAtLoc ownerLoc sortTasksRec F5 := rfl
  have hids2 : List.Perm (idsList F2) (idsTask t1 ++ idsList f1) :=
    idsList_applyAtLoc_ins_perm destLoc t1 (fun cs => clampPos ord cs.length) f1 hval
  have hids3 : List.Perm (idsList F3) (idsTask t1 ++ idsList f1) :=
    (idsList_applyAtLoc_norm_perm destLoc F2).trans hids2
  have hids4 : List.Perm (idsList F4) (idsTask t1 ++ idsList f1) := by
    rw [hF4def]
    by_cases hsame : ownerLoc = destLoc
    · simpa [hsame] using hids3
    · simp only [hsame, if_false]
      exact (idsList_applyAtLoc_norm_perm ownerLoc F3).trans hids3
  have hids5 : List.Perm (idsList F5) (idsTask t1 ++ idsList f1) :=
    (idsList_applyAtLoc_sortRec_perm destLoc F4).trans hids4
  rw [hplace]
  by_cases hsame : ownerLoc = destLoc
  · simpa [hsame] using hids5
  · simp only [hsame, if_false]
    exact (idsList_applyAtLoc_sortRec_perm ownerLoc F5).trans hids5

/-- C1: with unique ids, a successful `updateTaskOrder` clamps the requested
position into `[0, L]` where `L` is the destination sibling list's length
after the moved task was spliced out, splices the task in at that position,
and renormalizes the destination list's `order` fields to `0..n-1` — and,
when the source sibling list is distinct, renormalizes it too (same members,
orders `0..m-1`); concretely, moving B to position 0 in the top-level forest
A(0), B(1), C(2) yields the top-level sequence B, A, C with orders 0, 1, 2. -/
theorem move_clamps_and_renormalizes (s : Store) (tid : String) (ord : Int)
    (np : Option String) (now : Nat) (w : Bool)
    (hinit : ensureInited s = true) (hnd : (idsList s.tasks).Nodup)
    (oLoc : Option String) (t0 : Task) (f1 : List Task)
    (hex : extractTask tid s.tasks = some (oLoc, t0, f1))
    (destLoc : Option String) (hdest : destLoc = resolveDest np f1)
    (dl : List Task) (hdl : dl = sibListAt f1 destLoc)
    (pos : Nat) (hpos : pos = clampPos ord dl.length) :
    (∃ t, (updateTaskOrder s tid ord np now w).1 = .ok (some t) ∧ t.id = tid) ∧
    (pos ≤ dl.length ∧
      (0 ≤ ord → ord ≤ (dl.length : Int) → (pos : Int) = ord) ∧
      (ord < 0 → pos = 0) ∧ ((dl.length : Int) < ord → pos = dl.length)) ∧
    topIds (sibListAt (updateTaskOrder s tid ord np now w).2.tasks destLoc)
      = listInsertAt pos tid (topIds dl) ∧
    topOrders (sibListAt (updateTaskOrder s tid ord np now w).2.tasks destLoc)
      = intRange (dl.length + 1) ∧
    (oLoc ≠ destLoc →
      topIds (sibListAt (updateTaskOrder s tid ord np now w).2.tasks oLoc)
          = topIds (sibListAt f1 oLoc) ∧
      topOrders (sibListAt (updateTaskOrder s tid ord np now w).2.tasks oLoc)
          = intRange (sibListAt f1 oLoc).length) ∧
    topIds (updateTaskOrder exABC "B" 0 none 7 true).2.tasks = ["B", "A", "C"] ∧
    topOrders (updateTaskOrder exABC "B" 0 none 7 true).2.tasks = [0, 1, 2] := by
  subst hdest
  subst hdl
  subst hpos
  have hid : t0.id = tid := (extractTask_some tid s.tasks _ hex).1
  have hperm : List.Perm (idsList s.tasks) (idsTask t0 ++ idsList f1) :=
    (extractTask_some tid s.tasks _ hex).2.1
  have homem := (extractTask_some tid s.tasks _ hex).2.2
  have hnd0 : (idsTask t0 ++ idsList f1).Nodup := hperm.nodup_iff.mp hnd
  set t1 := (t0.withOrder ord).withUpdatedAt now with ht1def
  have ht1id : t1.id = tid := by
    rw [ht1def]
    cases t0
    simpa using hid
  have hids_t1 : idsTask t1 = idsTask t0 := idsTask_withOrder_withUpdatedAt t0 ord now
  have hnd1 : (idsTask t1 ++ idsList f1).Nodup := by
    rw [hids_t1]
    exact hnd0
  have hval : locValid (resolveDest np f1) f1 := locValid_resolveDest np f1
  have hoval : locValid oLoc f1 := by
    cases oLoc with
    | none => trivial
    | some oid => exact homem oid rfl
  have hox : ∀ oid, oLoc = some oid → oid ∉ idsTask t1 := by
    intro oid ho hmem1
    rw [hids_t1] at hmem1
    exact (List.disjoint_of_nodup_append hnd0) hmem1 (homem oid ho)
  have hobsd := placeTask_pairs_dest oLoc (resolveDest np f1) t1 ord f1 hnd1 hval
  set F6 := placeTask oLoc (resolveDest np f1) t1 ord f1 with hF6def
  have hres : updateTaskOrder s tid ord np now w
      = (.ok (findInList tid F6), saveToDatabase { s with tasks := F6 } w) := by
    unfold updateTaskOrder
    rw [hinit]
    simp only [Bool.true_eq_false, if_false, hex]
  have htasks : (updateTaskOrder s tid ord np now w).2.tasks = F6 := by
    rw [hres]
    simp [saveToDatabase_tasks]
  have hvald6 : locValid (resolveDest np f1) F6 := locValid_of_readObs_some hobsd
  have hpairs : pairsOf (sibListAt F6 (resolveDest np f1))
      = pairsOf (normalizeOrder (listInsertAt
          (clampPos ord (sibListAt f1 (resolveDest np f1)).length) t1
          (sibListAt f1 (resolveDest np f1)))) := by
    have hv := readObs_eq_of_valid F6 (resolveDest np f1) hvald6
    rw [hv] at hobsd
    exact Option.some_inj.mp hobsd
  refine ⟨?_, clampPos_spec ord _, ?_, ?_, ?_, ?_, ?_⟩
  · have hmem6 : tid ∈ idsList F6 := by
      have hids6 : List.Perm (idsList F6) (idsTask t1 ++ idsList f1) :=
        idsList_placeTask_perm oLoc (resolveDest np f1) t1 ord f1 hval
      refine hids6.mem_iff.mpr (List.mem_append_left _ ?_)
      rw [hids_t1, ← hid]
      simp [idsTask_def]
    obtain ⟨u, hfind, huid⟩ := findInList_mem_some tid F6 hmem6
    refine ⟨u, ?_, huid⟩
    rw [hres]
    simp [hfind]
  · rw [htasks, topIds_of_pairsOf_eq hpairs, topIds_normalizeOrder, topIds_listInsertAt,
      ht1id]
  · rw [htasks, topOrders_of_pairsOf_eq hpairs, topOrders_normalizeOrder,
      length_listInsertAt]
  · intro hneq
    have hobso := placeTask_pairs_owner oLoc (resolveDest np f1) t1 ord f1 hneq hnd1
      hval hoval hox
    have hvalo6 : locValid oLoc F6 := locValid_of_readObs_some hobso
    have hpairso : pairsOf (sibListAt F6 oLoc)
        = pairsOf (normalizeOrder (sibListAt f1 oLoc)) := by
      have hv := readObs_eq_of_valid F6 oLoc hvalo6
      rw [hv] at hobso
      exact Option.some_inj.mp hobso
    constructor
    · rw [htasks, topIds_of_pairsOf_eq hpairso, topIds_normalizeOrder]
    · rw [htasks, topOrders_of_pairsOf_eq hpairso, topOrders_normalizeOrder]
  · rfl
  · rfl

/-- Witness for C1: moving B to position 0 in the top-level forest A, B, C. -/
theorem move_clamps_and_renormalizes_witness :
    ensureInited exABC = true ∧ (idsList exABC.tasks).Nodup ∧
    extractTask "B" exABC.tasks
      = some (none, mkT "B" 1 [], [mkT "A" 0 [], mkT "C" 2 []]) ∧
    ((∃ t, (updateTaskOrder exABC "B" 0 none 7 true).1 = Except.ok (some t) ∧
        t.id = "B") ∧
      ((0 : Nat) ≤ 2 ∧ ((0 : Int) ≤ 0 → (0 : Int) ≤ 2 → ((0 : Nat) : Int) = 0) ∧
        ((0 : Int) < 0 → (0 : Nat) = 0) ∧ ((2 : Int) < 0 → (0 : Nat) = 2)) ∧
      topIds (sibListAt (updateTaskOrder exABC "B" 0 none 7 true).2.tasks none)
        = ["B", "A", "C"] ∧
      topOrders (sibListAt (updateTaskOrder exABC "B" 0 none 7 true).2.tasks none)
        = intRange 3 ∧
      ((none : Option String) ≠ (none : Option String) →
        topIds (sibListAt (updateTaskOrder exABC "B" 0 none 7 true).2.tasks none)
            = topIds (sibListAt [mkT "A" 0 [], mkT "C" 2 []] none) ∧
        topOrders (sibListAt (updateTaskOrder exABC "B" 0 none 7 true).2.tasks none)
            = intRange (sibListAt [mkT "A" 0 [], mkT "C" 2 []] none).length) ∧
      topIds (updateTaskOrder exABC "B" 0 none 7 true).2.tasks = ["B", "A", "C"] ∧
      topOrders (updateTaskOrder exABC "B" 0 none 7 true).2.tasks = [0, 1, 2]) :=
  ⟨rfl, by decide, rfl,
    move_clamps_and_renormalizes exABC "B" 0 none 7 true rfl (by decide)
      none (mkT "B" 1 []) [mkT "A" 0 [], mkT "C" 2 []] rfl none rfl
      [mkT "A" 0 [], mkT "C" 2 []] rfl 0 (by decide)⟩

end TaskStore
